import Mathlib

/-!
Verification of the tiktoken-wasm BPE tokenizer core (src/lib.rs) against its
natural-language specification.

Shallow embedding conventions:
* Byte slices (`&[u8]`, `Vec<u8>`) are `List Nat`; strings (`&str`) are lists of
  Unicode code points (`List Nat`); a `std::ops::Range<usize>` is a `Nat × Nat`.
* A `HashMap<Vec<u8>, usize>` is an abstract lookup function
  `List Nat → Option Nat` (the merge loop only calls `get`); likewise the
  decoder maps are `Nat → Option (List Nat)`.
* Rust panics (`unwrap`, out-of-bounds index `m[k]`) are modelled as `none` /
  a dedicated `panicked` outcome, so fallible paths return `Option`/`Except`.
* The two regex engines are abstracted: the ordinary pre-tokenizer is a
  function `split : List Nat → List (List Nat)` yielding the successive match
  substrings, and the special-token regex is a `find_from_pos` function that
  returns (nonempty, in-bounds, at-or-after-position) matches.
-/

/-- Rust slice `piece[a..b]` of a byte list (callers keep `a ≤ b ≤ len`). -/
def sliceL (l : List Nat) (a b : Nat) : List Nat := (l.drop a).take (b - a)

/-- Embedding of `iter().map(f).collect::<Result<_,_>>`-style loops: apply an
option-returning function to every element, failing if any application fails. -/
def optMapList {α β : Type} (f : α → Option β) : List α → Option (List β)
  | [] => some []
  | a :: rest =>
    match f a with
    | none => none
    | some b =>
      match optMapList f rest with
      | none => none
      | some bs => some (b :: bs)

/-- Rust `xs.starts_with(&pre)` on byte lists: `startsWithB xs pre` is true iff
`pre` is an initial segment of `xs`. -/
def startsWithB : List Nat → List Nat → Bool
  | _, [] => true
  | [], _ :: _ => false
  | a :: xs, b :: ys => a == b && startsWithB xs ys

/-- Lexicographic `<` on byte sequences, the `Ord` used by Rust for
`Vec<u8>` comparisons in `partition_point` (shorter strict prefixes compare
smaller). -/
def lexLt : List Nat → List Nat → Bool
  | [], [] => false
  | [], _ :: _ => true
  | _ :: _, [] => false
  | a :: xs, b :: ys => if a < b then true else if b < a then false else lexLt xs ys

lemma optMapList_cons {α β : Type} (f : α → Option β) (a : α) (rest : List α) :
    optMapList f (a :: rest) =
      match f a with
      | none => none
      | some b =>
        match optMapList f rest with
        | none => none
        | some bs => some (b :: bs) := rfl

lemma optMapList_isSome {α β : Type} (f : α → Option β) :
    ∀ l : List α, (∀ a ∈ l, (f a).isSome) → (optMapList f l).isSome := by
  intro l
  induction l with
  | nil => intro _; simp [optMapList]
  | cons a rest ih =>
    intro h
    have ha := h a (by simp)
    have hrest := ih (fun x hx => h x (by simp [hx]))
    rcases Option.isSome_iff_exists.mp ha with ⟨b, hb⟩
    rcases Option.isSome_iff_exists.mp hrest with ⟨bs, hbs⟩
    simp [optMapList, hb, hbs]

lemma optMapList_mem {α β : Type} (f : α → Option β) :
    ∀ (l : List α) (bs : List β), optMapList f l = some bs →
      ∀ b ∈ bs, ∃ a ∈ l, f a = some b := by
  intro l
  induction l with
  | nil => intro bs h b hb; simp [optMapList] at h; subst h; simp at hb
  | cons a rest ih =>
    intro bs h b hb
    rw [optMapList_cons] at h
    cases hfa : f a with
    | none => rw [hfa] at h; cases h
    | some b0 =>
      rw [hfa] at h
      cases hrest : optMapList f rest with
      | none => rw [hrest] at h; cases h
      | some bs0 =>
        rw [hrest] at h
        cases h
        rcases List.mem_cons.mp hb with hbb | hbmem
        · exact ⟨a, by simp, by rw [hfa, hbb]⟩
        · rcases ih bs0 hrest b hbmem with ⟨a2, ha2, hfa2⟩
          exact ⟨a2, by simp [ha2], hfa2⟩

lemma startsWithB_iff : ∀ xs pre : List Nat,
    startsWithB xs pre = true ↔ ∃ r, xs = pre ++ r := by
  intro xs pre
  induction pre generalizing xs with
  | nil => simp [startsWithB]
  | cons b ys ih =>
    cases xs with
    | nil => simp [startsWithB]
    | cons a l =>
      simp only [startsWithB, Bool.and_eq_true, beq_iff_eq, List.cons_append,
        List.cons.injEq]
      rw [ih l]
      constructor
      · rintro ⟨rfl, r, rfl⟩
        exact ⟨r, rfl, rfl⟩
      · rintro ⟨r, rfl, rfl⟩
        exact ⟨rfl, r, rfl⟩

lemma startsWithB_refl (xs : List Nat) : startsWithB xs xs = true :=
  (startsWithB_iff xs xs).mpr ⟨[], by simp⟩

lemma startsWithB_of_append_le :
    ∀ (ub ds r rest : List Nat), ds ++ r = ub ++ rest → ub.length ≤ ds.length →
      startsWithB ds ub = true := by
  intro ub
  induction ub with
  | nil => intro ds r rest _ _; simp [startsWithB_iff]
  | cons u ub' ih =>
    intro ds r rest happ hlen
    cases ds with
    | nil => simp at hlen
    | cons d ds' =>
      simp only [List.cons_append] at happ
      have hd : d = u := by exact (List.cons.injEq _ _ _ _).mp happ |>.1
      have ht : ds' ++ r = ub' ++ rest := by exact (List.cons.injEq _ _ _ _).mp happ |>.2
      subst hd
      simp only [startsWithB, beq_self_eq_true, Bool.true_and]
      exact ih ds' r rest ht (by simpa using hlen)

/-! ## `_byte_pair_merge` (src/lib.rs lines 424-456)

The Rust loop keeps `parts : Vec<Range<usize>>`, scans all adjacent pairs for
the minimum rank of the concatenated bytes (`min_rank`), merges the winner and
repeats until no adjacent pair is in the table (or a single part remains).  -/

/-- One update of the `min_rank` accumulator for index `i`:
`if min_rank.is_none() || rank < min_rank.unwrap().0 { min_rank = Some((rank, i)) }`. -/
def minRankUpd (f : Nat → Option Nat) (i : Nat) (acc : Option (Nat × Nat)) :
    Option (Nat × Nat) :=
  match f i with
  | none => acc
  | some r =>
    match acc with
    | none => some (r, i)
    | some (mr, mi) => if r < mr then some (r, i) else some (mr, mi)

/-- The scan `for i in 0..n { ... }` run for `k` remaining iterations starting
at index `i` with accumulator `acc`. -/
def findMinRankGo (f : Nat → Option Nat) : Nat → Nat → Option (Nat × Nat) → Option (Nat × Nat)
  | 0, _, acc => acc
  | k + 1, i, acc => findMinRankGo f k (i + 1) (minRankUpd f i acc)

/-- The full scan `for i in 0..n` computing the minimum rank together with its
leftmost index. -/
def findMinRank (f : Nat → Option Nat) (n : Nat) : Option (Nat × Nat) :=
  findMinRankGo f n 0 none

/-- Invariant of the `min_rank` accumulator after the indices `< i` have been
scanned: `none` means no scanned index had a rank; `some (mr, mi)` means `mi`
is a scanned index of rank `mr`, no scanned index has a smaller rank, and every
scanned index left of `mi` has a strictly larger rank. -/
def GoodAcc (f : Nat → Option Nat) (i : Nat) : Option (Nat × Nat) → Prop
  | none => ∀ j s, j < i → f j = some s → False
  | some (mr, mi) =>
      mi < i ∧ f mi = some mr ∧ (∀ j s, j < i → f j = some s → mr ≤ s) ∧
        (∀ j s, j < mi → f j = some s → mr < s)

lemma goodAcc_upd (f : Nat → Option Nat) (i : Nat) (acc : Option (Nat × Nat))
    (h : GoodAcc f i acc) : GoodAcc f (i + 1) (minRankUpd f i acc) := by
  have hsplit : ∀ j : Nat, j < i + 1 → j < i ∨ j = i := by omega
  cases hfi : f i with
  | none =>
    cases acc with
    | none =>
      simp only [minRankUpd, hfi]
      intro j s hj hfj
      rcases hsplit j hj with hj' | rfl
      · exact h j s hj' hfj
      · rw [hfi] at hfj; cases hfj
    | some p =>
      rcases p with ⟨mr, mi⟩
      obtain ⟨h1, h2, h3, h4⟩ := h
      simp only [minRankUpd, hfi]
      refine ⟨by omega, h2, ?_, h4⟩
      intro j s hj hfj
      rcases hsplit j hj with hj' | rfl
      · exact h3 j s hj' hfj
      · rw [hfi] at hfj; cases hfj
  | some r =>
    cases acc with
    | none =>
      simp only [minRankUpd, hfi]
      refine ⟨by omega, hfi, ?_, ?_⟩
      · intro j s hj hfj
        rcases hsplit j hj with hj' | rfl
        · exact (h j s hj' hfj).elim
        · rw [hfi] at hfj; cases hfj; exact Nat.le_refl r
      · intro j s hj hfj
        exact (h j s hj hfj).elim
    | some p =>
      rcases p with ⟨mr, mi⟩
      obtain ⟨h1, h2, h3, h4⟩ := h
      simp only [minRankUpd, hfi]
      by_cases hlt : r < mr
      · rw [if_pos hlt]
        refine ⟨by omega, hfi, ?_, ?_⟩
        · intro j s hj hfj
          rcases hsplit j hj with hj' | rfl
          · exact Nat.le_of_lt (Nat.lt_of_lt_of_le hlt (h3 j s hj' hfj))
          · rw [hfi] at hfj; cases hfj; exact Nat.le_refl r
        · intro j s hj hfj
          exact Nat.lt_of_lt_of_le hlt (h3 j s hj hfj)
      · rw [if_neg hlt]
        refine ⟨by omega, h2, ?_, h4⟩
        intro j s hj hfj
        rcases hsplit j hj with hj' | rfl
        · exact h3 j s hj' hfj
        · rw [hfi] at hfj; cases hfj; exact Nat.le_of_not_lt hlt

lemma findMinRankGo_good (f : Nat → Option Nat) :
    ∀ (k i : Nat) (acc : Option (Nat × Nat)), GoodAcc f i acc →
      GoodAcc f (i + k) (findMinRankGo f k i acc) := by
  intro k
  induction k with
  | zero => intro i acc h; simpa [findMinRankGo] using h
  | succ k ih =>
    intro i acc h
    have hrec := ih (i + 1) (minRankUpd f i acc) (goodAcc_upd f i acc h)
    have heq : i + 1 + k = i + (k + 1) := by omega
    rw [heq] at hrec
    exact hrec

lemma findMinRank_good (f : Nat → Option Nat) (n : Nat) :
    GoodAcc f n (findMinRank f n) := by
  have h0 : GoodAcc f 0 (none : Option (Nat × Nat)) := by
    simp only [GoodAcc]; intro j s hj _; exact absurd hj (Nat.not_lt_zero j)
  have := findMinRankGo_good f n 0 none h0
  simpa [findMinRank] using this

lemma findMinRank_some (f : Nat → Option Nat) (n r i : Nat)
    (h : findMinRank f n = some (r, i)) :
    i < n ∧ f i = some r ∧ (∀ j s, j < n → f j = some s → r ≤ s) ∧
      (∀ j s, j < i → f j = some s → r < s) := by
  have := findMinRank_good f n
  rw [h] at this
  exact this

lemma findMinRank_none (f : Nat → Option Nat) (n : Nat)
    (h : findMinRank f n = none) : ∀ j s, j < n → f j = some s → False := by
  have := findMinRank_good f n
  rw [h] at this
  exact this

/-- The rank of the adjacent pair at index `i`:
`ranks.get(&piece[parts[i].start..parts[i + 1].end])`. -/
def pairRank (piece : List Nat) (ranks : List Nat → Option Nat)
    (parts : List (Nat × Nat)) (i : Nat) : Option Nat :=
  ranks (sliceL piece (parts.getD i (0, 0)).1 (parts.getD (i + 1) (0, 0)).2)

/-- `parts[i] = parts[i].start..parts[i + 1].end; parts.remove(i + 1)`. -/
def mergeAt (parts : List (Nat × Nat)) (i : Nat) : List (Nat × Nat) :=
  (parts.set i ((parts.getD i (0, 0)).1, (parts.getD (i + 1) (0, 0)).2)).eraseIdx (i + 1)

lemma mergeAt_length (parts : List (Nat × Nat)) (i : Nat) (h : i + 1 < parts.length) :
    (mergeAt parts i).length = parts.length - 1 := by
  simp [mergeAt, List.length_eraseIdx, h]

lemma mergeAt_cons_succ (p : Nat × Nat) (ps : List (Nat × Nat)) (i : Nat) :
    mergeAt (p :: ps) (i + 1) = p :: mergeAt ps i := by
  simp [mergeAt, List.getD]

lemma mergeAt_cons_cons_zero (a b : Nat × Nat) (ps : List (Nat × Nat)) :
    mergeAt (a :: b :: ps) 0 = (a.1, b.2) :: ps := by
  simp [mergeAt, List.getD]

lemma mergeAt_mem (parts : List (Nat × Nat)) (i : Nat) (q : Nat × Nat)
    (hq : q ∈ mergeAt parts i) :
    q = ((parts.getD i (0, 0)).1, (parts.getD (i + 1) (0, 0)).2) ∨ q ∈ parts := by
  have hsub : q ∈ parts.set i ((parts.getD i (0, 0)).1, (parts.getD (i + 1) (0, 0)).2) :=
    (List.eraseIdx_sublist _ (i + 1)).mem hq
  rcases List.mem_or_eq_of_mem_set hsub with h | h
  · exact Or.inr h
  · exact Or.inl h

/-- One iteration of the merge loop: `none` means the loop breaks (single part
left, or no adjacent pair is in the table), `some parts2` means the loop merges
the minimum-rank pair and continues with `parts2`. -/
def bpmStep (piece : List Nat) (ranks : List Nat → Option Nat)
    (parts : List (Nat × Nat)) : Option (List (Nat × Nat)) :=
  if parts.length = 1 then none
  else
    match findMinRank (pairRank piece ranks parts) (parts.length - 1) with
    | some (_, i) => some (mergeAt parts i)
    | none => none

lemma bpmStep_some (piece : List Nat) (ranks : List Nat → Option Nat)
    (parts parts2 : List (Nat × Nat)) (h : bpmStep piece ranks parts = some parts2) :
    ∃ r i, findMinRank (pairRank piece ranks parts) (parts.length - 1) = some (r, i) ∧
      i + 1 < parts.length ∧ parts2 = mergeAt parts i := by
  unfold bpmStep at h
  by_cases h1 : parts.length = 1
  · simp [h1] at h
  · rw [if_neg h1] at h
    cases hfm : findMinRank (pairRank piece ranks parts) (parts.length - 1) with
    | none => rw [hfm] at h; cases h
    | some p =>
      rcases p with ⟨r, i⟩
      rw [hfm] at h
      cases h
      have hi := (findMinRank_some _ _ _ _ hfm).1
      exact ⟨r, i, rfl, by omega, rfl⟩

lemma bpmStep_length (piece : List Nat) (ranks : List Nat → Option Nat)
    (parts parts2 : List (Nat × Nat)) (h : bpmStep piece ranks parts = some parts2) :
    parts2.length < parts.length := by
  rcases bpmStep_some piece ranks parts parts2 h with ⟨r, i, _, hlt, rfl⟩
  rw [mergeAt_length parts i hlt]
  omega

/-- The merge loop `loop { ... }` of `_byte_pair_merge`. -/
def bpmGo (piece : List Nat) (ranks : List Nat → Option Nat)
    (parts : List (Nat × Nat)) : List (Nat × Nat) :=
  match h : bpmStep piece ranks parts with
  | some parts2 => bpmGo piece ranks parts2
  | none => parts
termination_by parts.length
decreasing_by exact bpmStep_length piece ranks parts parts2 h

lemma bpmGo_of_step_some (piece : List Nat) (ranks : List Nat → Option Nat)
    (parts parts2 : List (Nat × Nat)) (h : bpmStep piece ranks parts = some parts2) :
    bpmGo piece ranks parts = bpmGo piece ranks parts2 := by
  rw [bpmGo.eq_def]
  split
  · next a heq => rw [heq] at h; cases h; rfl
  · next heq => rw [heq] at h; cases h

lemma bpmGo_of_step_none (piece : List Nat) (ranks : List Nat → Option Nat)
    (parts : List (Nat × Nat)) (h : bpmStep piece ranks parts = none) :
    bpmGo piece ranks parts = parts := by
  rw [bpmGo.eq_def]
  split
  · next a heq => rw [heq] at h; cases h
  · next heq => rfl

/-- Any property preserved by single merge steps is preserved by the whole
merge loop. -/
lemma bpmGo_preserves (piece : List Nat) (ranks : List Nat → Option Nat)
    (P : List (Nat × Nat) → Prop)
    (hstep : ∀ parts parts2, bpmStep piece ranks parts = some parts2 → P parts → P parts2) :
    ∀ (n : Nat) (parts : List (Nat × Nat)), parts.length ≤ n → P parts →
      P (bpmGo piece ranks parts) := by
  intro n
  induction n with
  | zero =>
    intro parts hlen hp
    cases hstep0 : bpmStep piece ranks parts with
    | none => rw [bpmGo_of_step_none piece ranks parts hstep0]; exact hp
    | some parts2 =>
      have := bpmStep_length piece ranks parts parts2 hstep0
      omega
  | succ n ih =>
    intro parts hlen hp
    cases hstep0 : bpmStep piece ranks parts with
    | none => rw [bpmGo_of_step_none piece ranks parts hstep0]; exact hp
    | some parts2 =>
      rw [bpmGo_of_step_some piece ranks parts parts2 hstep0]
      have hlt := bpmStep_length piece ranks parts parts2 hstep0
      exact ih parts2 (by omega) (hstep parts parts2 hstep0 hp)

/-- The initial `parts`: `(0..piece.len()).map(|i| i..i + 1)`. -/
def initParts (n : Nat) : List (Nat × Nat) :=
  (List.range n).map (fun i => (i, i + 1))

/-- `_byte_pair_merge(piece, ranks)` (src/lib.rs lines 424-456). -/
def _byte_pair_merge (piece : List Nat) (ranks : List Nat → Option Nat) :
    List (Nat × Nat) :=
  bpmGo piece ranks (initParts piece.length)

/-- `byte_pair_encode(piece, ranks)` (src/lib.rs lines 458-466).  The Rust map
indexings `ranks[piece]` and `ranks[&piece[p.start..p.end]]` panic on a missing
key; that is modelled by `none`. -/
def byte_pair_encode (piece : List Nat) (ranks : List Nat → Option Nat) :
    Option (List Nat) :=
  if piece.length = 1 then (ranks piece).map (fun r => [r])
  else optMapList (fun p => ranks (sliceL piece p.1 p.2)) (_byte_pair_merge piece ranks)

/-! ## Partition invariant of the merge result (claim C4) -/

/-- `chainB s parts e` holds when `parts` is a gapless chain of nonempty
half-open ranges: the first range starts at `s`, each range's end is the next
range's start, and the last range ends at `e` (for empty `parts`, `s = e`). -/
def chainB : Nat → List (Nat × Nat) → Nat → Bool
  | s, [], e => s == e
  | s, (a, b) :: rest, e => a == s && Nat.blt s b && chainB b rest e

lemma chainB_nil (s e : Nat) : chainB s [] e = true ↔ s = e := by
  simp [chainB]

lemma chainB_cons (s e a b : Nat) (rest : List (Nat × Nat)) :
    chainB s ((a, b) :: rest) e = true ↔ a = s ∧ s < b ∧ chainB b rest e = true := by
  simp [chainB, Nat.blt_eq, and_assoc]

lemma chainB_le : ∀ (parts : List (Nat × Nat)) (s e : Nat),
    chainB s parts e = true → s ≤ e := by
  intro parts
  induction parts with
  | nil => intro s e h; rw [chainB_nil] at h; omega
  | cons p rest ih =>
    rcases p with ⟨a, b⟩
    intro s e h
    rw [chainB_cons] at h
    have := ih b e h.2.2
    omega

lemma chainB_initParts : ∀ (n a : Nat),
    chainB a ((List.range' a n).map (fun i => (i, i + 1))) (a + n) = true := by
  intro n
  induction n with
  | zero => intro a; simp [List.range', chainB]
  | succ n ih =>
    intro a
    rw [List.range'_succ]
    simp only [List.map_cons]
    rw [chainB_cons]
    refine ⟨rfl, by omega, ?_⟩
    have := ih (a + 1)
    have heq : a + 1 + n = a + (n + 1) := by omega
    rw [heq] at this
    exact this

lemma chainB_mergeAt : ∀ (i : Nat) (parts : List (Nat × Nat)) (s e : Nat),
    chainB s parts e = true → i + 1 < parts.length →
    chainB s (mergeAt parts i) e = true := by
  intro i
  induction i with
  | zero =>
    intro parts s e hch hlen
    match parts with
    | [] => simp at hlen
    | [p] => simp at hlen
    | (a, b) :: (c, d) :: rest =>
      rw [mergeAt_cons_cons_zero]
      rw [chainB_cons] at hch
      obtain ⟨rfl, hsb, hch2⟩ := hch
      rw [chainB_cons] at hch2
      obtain ⟨rfl, hcd, hch3⟩ := hch2
      rw [chainB_cons]
      exact ⟨rfl, by omega, hch3⟩
  | succ i ih =>
    intro parts s e hch hlen
    match parts with
    | [] => simp at hlen
    | (a, b) :: rest =>
      rw [mergeAt_cons_succ]
      rw [chainB_cons] at hch ⊢
      obtain ⟨rfl, hsb, hch2⟩ := hch
      refine ⟨rfl, hsb, ?_⟩
      exact ih rest b e hch2 (by simpa using Nat.lt_of_succ_lt_succ (by simpa using hlen))

lemma bpmGo_chain (piece : List Nat) (ranks : List Nat → Option Nat)
    (parts : List (Nat × Nat)) (s e : Nat) (hch : chainB s parts e = true) :
    chainB s (bpmGo piece ranks parts) e = true := by
  refine bpmGo_preserves piece ranks (fun ps => chainB s ps e = true) ?_
    parts.length parts (Nat.le_refl _) hch
  intro ps ps2 hstep hc
  rcases bpmStep_some piece ranks ps ps2 hstep with ⟨r, i, _, hlt, rfl⟩
  exact chainB_mergeAt i ps s e hc hlt

lemma byte_pair_merge_chain (piece : List Nat) (ranks : List Nat → Option Nat) :
    chainB 0 (_byte_pair_merge piece ranks) piece.length = true := by
  unfold _byte_pair_merge
  apply bpmGo_chain
  have := chainB_initParts piece.length 0
  rw [Nat.zero_add] at this
  unfold initParts
  rw [List.range_eq_range']
  exact this

/-! ## All-parts-in-table invariant (claim C6) -/

lemma initParts_inTable (piece : List Nat) (ranks : List Nat → Option Nat)
    (hcov : ∀ b ∈ piece, (ranks [b]).isSome) :
    ∀ p ∈ initParts piece.length, (ranks (sliceL piece p.1 p.2)).isSome := by
  intro p hp
  unfold initParts at hp
  rcases List.mem_map.mp hp with ⟨i, hi, rfl⟩
  have hilt : i < piece.length := List.mem_range.mp hi
  have hslice : sliceL piece i (i + 1) = [piece[i]] := by
    unfold sliceL
    have h1 : i + 1 - i = 1 := by omega
    rw [h1, List.drop_eq_getElem_cons hilt]
    rfl
  rw [hslice]
  exact hcov piece[i] (List.getElem_mem hilt)

lemma pairRank_getD (piece : List Nat) (ranks : List Nat → Option Nat)
    (parts : List (Nat × Nat)) (i : Nat) :
    pairRank piece ranks parts i =
      ranks (sliceL piece (parts.getD i (0, 0)).1 (parts.getD (i + 1) (0, 0)).2) := rfl

lemma bpmGo_inTable (piece : List Nat) (ranks : List Nat → Option Nat)
    (parts : List (Nat × Nat))
    (hin : ∀ p ∈ parts, (ranks (sliceL piece p.1 p.2)).isSome) :
    ∀ p ∈ bpmGo piece ranks parts, (ranks (sliceL piece p.1 p.2)).isSome := by
  refine bpmGo_preserves piece ranks
    (fun ps => ∀ p ∈ ps, (ranks (sliceL piece p.1 p.2)).isSome) ?_
    parts.length parts (Nat.le_refl _) hin
  intro ps ps2 hstep hc
  rcases bpmStep_some piece ranks ps ps2 hstep with ⟨r, i, hfm, hlt, rfl⟩
  intro p hp
  rcases mergeAt_mem ps i p hp with hnew | hold
  · subst hnew
    have hfi := (findMinRank_some _ _ _ _ hfm).2.1
    rw [pairRank_getD] at hfi
    rw [hfi]
    rfl
  · exact hc p hold

lemma byte_pair_merge_inTable (piece : List Nat) (ranks : List Nat → Option Nat)
    (hcov : ∀ b ∈ piece, (ranks [b]).isSome) :
    ∀ p ∈ _byte_pair_merge piece ranks, (ranks (sliceL piece p.1 p.2)).isSome := by
  unfold _byte_pair_merge
  exact bpmGo_inTable piece ranks _ (initParts_inTable piece ranks hcov)

lemma byte_pair_encode_isSome (piece : List Nat) (ranks : List Nat → Option Nat)
    (hcov : ∀ b ∈ piece, (ranks [b]).isSome) :
    (byte_pair_encode piece ranks).isSome := by
  unfold byte_pair_encode
  by_cases h1 : piece.length = 1
  · rw [if_pos h1]
    match piece, h1 with
    | [b], _ =>
      have := hcov b (by simp)
      rcases Option.isSome_iff_exists.mp this with ⟨r, hr⟩
      simp [hr]
  · rw [if_neg h1]
    exact optMapList_isSome _ _ (byte_pair_merge_inTable piece ranks hcov)

/-! ## UTF-8 (Rust `str::from_utf8` / `str::as_bytes`)

Strings are modelled as lists of Unicode scalar values; these two functions
embed the standard UTF-8 codec used at the `&str`/`&[u8]` boundary. -/

/-- Standard UTF-8 encoding of one Unicode scalar value. -/
def utf8EncodeCP (n : Nat) : List Nat :=
  if n < 0x80 then [n]
  else if n < 0x800 then [0xC0 + n / 64, 0x80 + n % 64]
  else if n < 0x10000 then [0xE0 + n / 4096, 0x80 + n / 64 % 64, 0x80 + n % 64]
  else [0xF0 + n / 262144, 0x80 + n / 4096 % 64, 0x80 + n / 64 % 64, 0x80 + n % 64]

/-- UTF-8 bytes of a string (Rust `s.as_bytes()`). -/
def utf8Encode (s : List Nat) : List Nat := (s.map utf8EncodeCP).flatten

/-- Tail of a 2-byte UTF-8 sequence with lead byte `b` (`0xC2 ≤ b < 0xE0`). -/
def utf8DecodeTwo (b : Nat) : List Nat → Option (Nat × List Nat)
  | c1 :: rest =>
    if 0x80 ≤ c1 ∧ c1 < 0xC0 then some ((b - 0xC0) * 64 + (c1 - 0x80), rest) else none
  | [] => none

/-- Tail of a 3-byte UTF-8 sequence with lead byte `b` (`0xE0 ≤ b < 0xF0`);
the extra conditions reject overlong forms (`b = 0xE0`) and surrogates
(`b = 0xED`). -/
def utf8DecodeThree (b : Nat) : List Nat → Option (Nat × List Nat)
  | c1 :: c2 :: rest =>
    if (0x80 ≤ c1 ∧ c1 < 0xC0) ∧ (0x80 ≤ c2 ∧ c2 < 0xC0) ∧
        (b = 0xE0 → 0xA0 ≤ c1) ∧ (b = 0xED → c1 < 0xA0) then
      some ((b - 0xE0) * 4096 + (c1 - 0x80) * 64 + (c2 - 0x80), rest)
    else none
  | _ => none

/-- Tail of a 4-byte UTF-8 sequence with lead byte `b` (`0xF0 ≤ b < 0xF5`);
the extra conditions reject overlong forms (`b = 0xF0`) and values above
`0x10FFFF` (`b = 0xF4`). -/
def utf8DecodeFour (b : Nat) : List Nat → Option (Nat × List Nat)
  | c1 :: c2 :: c3 :: rest =>
    if (0x80 ≤ c1 ∧ c1 < 0xC0) ∧ (0x80 ≤ c2 ∧ c2 < 0xC0) ∧ (0x80 ≤ c3 ∧ c3 < 0xC0) ∧
        (b = 0xF0 → 0x90 ≤ c1) ∧ (b = 0xF4 → c1 < 0x90) then
      some ((b - 0xF0) * 262144 + (c1 - 0x80) * 4096 + (c2 - 0x80) * 64 + (c3 - 0x80), rest)
    else none
  | _ => none

/-- Decoding of the first UTF-8 sequence of a byte list (strict: rejects stray
continuation bytes, overlong forms, surrogates and values above `0x10FFFF`):
returns the code point and the remaining bytes. -/
def utf8DecodeOne : List Nat → Option (Nat × List Nat)
  | [] => none
  | b :: bs =>
    if b < 0x80 then some (b, bs)
    else if b < 0xC2 then none
    else if b < 0xE0 then utf8DecodeTwo b bs
    else if b < 0xF0 then utf8DecodeThree b bs
    else if b < 0xF5 then utf8DecodeFour b bs
    else none

/-- Iterated UTF-8 decoding with a step budget.  Each successful step consumes
at least one byte, so a budget of `bs.length` (as used by `utf8Decode`) never
runs out before the input is exhausted. -/
def utf8DecodeGo : Nat → List Nat → Option (List Nat)
  | _, [] => some []
  | 0, _ :: _ => none
  | fuel + 1, b :: bs =>
    match utf8DecodeOne (b :: bs) with
    | none => none
    | some (c, rest) => (utf8DecodeGo fuel rest).map (fun cs => c :: cs)

/-- Full strict UTF-8 decoding (Rust `std::str::from_utf8`): `some` exactly on
valid UTF-8, returning the code points. -/
def utf8Decode (bs : List Nat) : Option (List Nat) := utf8DecodeGo bs.length bs

lemma utf8Encode_cons (c : Nat) (s : List Nat) :
    utf8Encode (c :: s) = utf8EncodeCP c ++ utf8Encode s := by
  simp [utf8Encode]

lemma utf8Encode_append (s t : List Nat) :
    utf8Encode (s ++ t) = utf8Encode s ++ utf8Encode t := by
  simp [utf8Encode]

set_option maxRecDepth 8192 in
lemma utf8DecodeOne_encode (bs : List Nat) (c : Nat) (rest : List Nat)
    (h : utf8DecodeOne bs = some (c, rest)) : utf8EncodeCP c ++ rest = bs := by
  match bs with
  | [] => simp [utf8DecodeOne] at h
  | b :: bs =>
    simp only [utf8DecodeOne] at h
    by_cases h1 : b < 0x80
    · rw [if_pos h1] at h
      cases h
      unfold utf8EncodeCP
      rw [if_pos h1]
      rfl
    · rw [if_neg h1] at h
      by_cases h2 : b < 0xC2
      · rw [if_pos h2] at h; cases h
      · rw [if_neg h2] at h
        by_cases h3 : b < 0xE0
        · rw [if_pos h3] at h
          match bs with
          | [] => simp [utf8DecodeTwo] at h
          | c1 :: rest2 =>
            simp only [utf8DecodeTwo] at h
            by_cases hc : 0x80 ≤ c1 ∧ c1 < 0xC0
            · rw [if_pos hc] at h
              cases h
              unfold utf8EncodeCP
              have hv1 : ¬ (b - 0xC0) * 64 + (c1 - 0x80) < 0x80 := by omega
              have hv2 : (b - 0xC0) * 64 + (c1 - 0x80) < 0x800 := by omega
              rw [if_neg hv1, if_pos hv2]
              have e1 : 0xC0 + ((b - 0xC0) * 64 + (c1 - 0x80)) / 64 = b := by omega
              have e2 : 0x80 + ((b - 0xC0) * 64 + (c1 - 0x80)) % 64 = c1 := by omega
              rw [e1, e2]
              rfl
            · rw [if_neg hc] at h; cases h
        · rw [if_neg h3] at h
          by_cases h4 : b < 0xF0
          · rw [if_pos h4] at h
            match bs with
            | [] => simp [utf8DecodeThree] at h
            | [c1] => simp [utf8DecodeThree] at h
            | c1 :: c2 :: rest2 =>
              simp only [utf8DecodeThree] at h
              by_cases hc : (0x80 ≤ c1 ∧ c1 < 0xC0) ∧ (0x80 ≤ c2 ∧ c2 < 0xC0) ∧
                  (b = 0xE0 → 0xA0 ≤ c1) ∧ (b = 0xED → c1 < 0xA0)
              · rw [if_pos hc] at h
                cases h
                obtain ⟨hc1, hc2, hc3, _⟩ := hc
                unfold utf8EncodeCP
                have hv1 : ¬ (b - 0xE0) * 4096 + (c1 - 0x80) * 64 + (c2 - 0x80) < 0x80 := by
                  omega
                have hv2 : ¬ (b - 0xE0) * 4096 + (c1 - 0x80) * 64 + (c2 - 0x80) < 0x800 := by
                  omega
                have hv3 : (b - 0xE0) * 4096 + (c1 - 0x80) * 64 + (c2 - 0x80) < 0x10000 := by
                  omega
                rw [if_neg hv1, if_neg hv2, if_pos hv3]
                have e1 : 0xE0 + ((b - 0xE0) * 4096 + (c1 - 0x80) * 64 + (c2 - 0x80)) / 4096 = b := by
                  omega
                have e2 : 0x80 + ((b - 0xE0) * 4096 + (c1 - 0x80) * 64 + (c2 - 0x80)) / 64 % 64 = c1 := by
                  omega
                have e3 : 0x80 + ((b - 0xE0) * 4096 + (c1 - 0x80) * 64 + (c2 - 0x80)) % 64 = c2 := by
                  omega
                rw [e1, e2, e3]
                rfl
              · rw [if_neg hc] at h; cases h
          · rw [if_neg h4] at h
            by_cases h5 : b < 0xF5
            · rw [if_pos h5] at h
              match bs with
              | [] => simp [utf8DecodeFour] at h
              | [c1] => simp [utf8DecodeFour] at h
              | [c1, c2] => simp [utf8DecodeFour] at h
              | c1 :: c2 :: c3 :: rest2 =>
                simp only [utf8DecodeFour] at h
                by_cases hc : (0x80 ≤ c1 ∧ c1 < 0xC0) ∧ (0x80 ≤ c2 ∧ c2 < 0xC0) ∧
                    (0x80 ≤ c3 ∧ c3 < 0xC0) ∧ (b = 0xF0 → 0x90 ≤ c1) ∧ (b = 0xF4 → c1 < 0x90)
                · rw [if_pos hc] at h
                  cases h
                  obtain ⟨hc1, hc2, hc3, hc4, _⟩ := hc
                  unfold utf8EncodeCP
                  have hv1 : ¬ (b - 0xF0) * 262144 + (c1 - 0x80) * 4096 + (c2 - 0x80) * 64 + (c3 - 0x80) < 0x80 := by
                    omega
                  have hv2 : ¬ (b - 0xF0) * 262144 + (c1 - 0x80) * 4096 + (c2 - 0x80) * 64 + (c3 - 0x80) < 0x800 := by
                    omega
                  have hv3 : ¬ (b - 0xF0) * 262144 + (c1 - 0x80) * 4096 + (c2 - 0x80) * 64 + (c3 - 0x80) < 0x10000 := by
                    omega
                  rw [if_neg hv1, if_neg hv2, if_neg hv3]
                  have e1 : 0xF0 + ((b - 0xF0) * 262144 + (c1 - 0x80) * 4096 + (c2 - 0x80) * 64 + (c3 - 0x80)) / 262144 = b := by
                    omega
                  have e2 : 0x80 + ((b - 0xF0) * 262144 + (c1 - 0x80) * 4096 + (c2 - 0x80) * 64 + (c3 - 0x80)) / 4096 % 64 = c1 := by
                    omega
                  have e3 : 0x80 + ((b - 0xF0) * 262144 + (c1 - 0x80) * 4096 + (c2 - 0x80) * 64 + (c3 - 0x80)) / 64 % 64 = c2 := by
                    omega
                  have e4 : 0x80 + ((b - 0xF0) * 262144 + (c1 - 0x80) * 4096 + (c2 - 0x80) * 64 + (c3 - 0x80)) % 64 = c3 := by
                    omega
                  rw [e1, e2, e3, e4]
                  rfl
                · rw [if_neg hc] at h; cases h
            · rw [if_neg h5] at h; cases h

lemma utf8DecodeGo_encode :
    ∀ (fuel : Nat) (bs cs : List Nat), utf8DecodeGo fuel bs = some cs →
      utf8Encode cs = bs := by
  intro fuel
  induction fuel with
  | zero =>
    intro bs cs h
    match bs with
    | [] => simp only [utf8DecodeGo] at h; cases h; rfl
    | b :: bs => simp [utf8DecodeGo] at h
  | succ fuel ih =>
    intro bs cs h
    match bs with
    | [] => simp only [utf8DecodeGo] at h; cases h; rfl
    | b :: bs =>
      simp only [utf8DecodeGo] at h
      cases hone : utf8DecodeOne (b :: bs) with
      | none =>
        rw [hone] at h
        have h2 : (none : Option (List Nat)) = some cs := h
        cases h2
      | some p =>
        rcases p with ⟨c, rest⟩
        rw [hone] at h
        have h2 : (utf8DecodeGo fuel rest).map (fun cs => c :: cs) = some cs := h
        cases hrec : utf8DecodeGo fuel rest with
        | none => rw [hrec] at h2; cases h2
        | some cs0 =>
          rw [hrec] at h2
          simp only [Option.map_some'] at h2
          cases h2
          rw [utf8Encode_cons, ih rest cs0 hrec]
          exact utf8DecodeOne_encode (b :: bs) c rest hone

lemma utf8Encode_of_utf8Decode (bs cs : List Nat) (h : utf8Decode bs = some cs) :
    utf8Encode cs = bs :=
  utf8DecodeGo_encode bs.length bs cs h

lemma utf8Decode_sanity : utf8Decode [0xC3, 0xA9] = some [233] ∧
    utf8Decode [0x80] = none ∧ utf8Encode [233] = [0xC3, 0xA9] := by decide

/-! ## Decoder `_decode_native` (src/lib.rs lines 544-554)

For each token, look it up in `decoder`, falling back to
`special_tokens_decoder[token]` (whose indexing panics on a miss, modelled by
`none`), and concatenate the byte sequences. -/

def _decode_native (dec specDec : Nat → Option (List Nat)) : List Nat → Option (List Nat)
  | [] => some []
  | t :: ts =>
    match (match dec t with | some bs => some bs | none => specDec t) with
    | none => none
    | some bs => (_decode_native dec specDec ts).map (fun r => bs ++ r)

lemma decode_native_nil (dec specDec : Nat → Option (List Nat)) :
    _decode_native dec specDec [] = some [] := rfl

lemma decode_native_cons_dec (dec specDec : Nat → Option (List Nat)) (t : Nat)
    (ts : List Nat) (bs : List Nat) (h : dec t = some bs) :
    _decode_native dec specDec (t :: ts) =
      (_decode_native dec specDec ts).map (fun r => bs ++ r) := by
  simp only [_decode_native, h]

lemma decode_native_cons (dec specDec : Nat → Option (List Nat)) (t : Nat) (ts : List Nat) :
    _decode_native dec specDec (t :: ts) =
      match (match dec t with | some bs => some bs | none => specDec t) with
      | none => none
      | some bs => (_decode_native dec specDec ts).map (fun r => bs ++ r) := rfl

lemma decode_native_append (dec specDec : Nat → Option (List Nat)) :
    ∀ (ts1 ts2 : List Nat) (b1 b2 : List Nat),
      _decode_native dec specDec ts1 = some b1 →
      _decode_native dec specDec ts2 = some b2 →
      _decode_native dec specDec (ts1 ++ ts2) = some (b1 ++ b2) := by
  intro ts1
  induction ts1 with
  | nil =>
    intro ts2 b1 b2 h1 h2
    simp only [decode_native_nil] at h1
    cases h1
    simpa using h2
  | cons t ts ih =>
    intro ts2 b1 b2 h1 h2
    rw [decode_native_cons] at h1
    cases hdt : dec t with
    | some bs =>
      rw [hdt] at h1
      have h1a : (_decode_native dec specDec ts).map (fun r => bs ++ r) = some b1 := h1
      cases hrec : _decode_native dec specDec ts with
      | none => rw [hrec] at h1a; cases h1a
      | some r1 =>
        rw [hrec] at h1a
        simp only [Option.map_some'] at h1a
        cases h1a
        have hgoal : _decode_native dec specDec (t :: ts ++ ts2) =
            (_decode_native dec specDec (ts ++ ts2)).map (fun r => bs ++ r) := by
          rw [List.cons_append, decode_native_cons, hdt]
        rw [hgoal, ih ts2 r1 b2 hrec h2]
        simp
    | none =>
      rw [hdt] at h1
      cases hst : specDec t with
      | none =>
        rw [hst] at h1
        have h1a : (none : Option (List Nat)) = some b1 := h1
        cases h1a
      | some bs =>
        rw [hst] at h1
        have h1a : (_decode_native dec specDec ts).map (fun r => bs ++ r) = some b1 := h1
        cases hrec : _decode_native dec specDec ts with
        | none => rw [hrec] at h1a; cases h1a
        | some r1 =>
          rw [hrec] at h1a
          simp only [Option.map_some'] at h1a
          cases h1a
          have hgoal : _decode_native dec specDec (t :: ts ++ ts2) =
              (_decode_native dec specDec (ts ++ ts2)).map (fun r => bs ++ r) := by
            rw [List.cons_append, decode_native_cons, hdt, hst]
          rw [hgoal, ih ts2 r1 b2 hrec h2]
          simp

/-! ## Ordinary encoding `_encode_ordinary_native` (src/lib.rs lines 556-570)

The pre-tokenizer regex is abstracted as `split : List Nat → List (List Nat)`
returning the successive `find_iter` match substrings of the input. -/

/-- Body of the per-piece loop: fast path `encoder.get(piece)`, slow path
`byte_pair_encode(piece, &self.encoder)`. -/
def encodePiece (enc : List Nat → Option Nat) (piece : List Nat) : Option (List Nat) :=
  match enc (utf8Encode piece) with
  | some t => some [t]
  | none => byte_pair_encode (utf8Encode piece) enc

/-- `_encode_ordinary_native(text)`: concatenated tokens of all pieces. -/
def _encode_ordinary_native (enc : List Nat → Option Nat)
    (split : List Nat → List (List Nat)) (text : List Nat) : Option (List Nat) :=
  (optMapList (encodePiece enc) (split text)).map List.flatten

/-! ## Round-trip lemmas -/

lemma sliceL_append (l : List Nat) (a b c : Nat) (hab : a ≤ b) (hbc : b ≤ c) :
    sliceL l a b ++ sliceL l b c = sliceL l a c := by
  unfold sliceL
  have hdrop : l.drop b = (l.drop a).drop (b - a) := by
    rw [List.drop_drop]
    congr 1
    omega
  rw [hdrop]
  have := List.take_add (l.drop a) (b - a) (c - b)
  have heq : b - a + (c - b) = c - a := by omega
  rw [heq] at this
  exact this.symm

lemma chainB_decode_slices (l : List Nat) :
    ∀ (parts : List (Nat × Nat)) (s e : Nat), chainB s parts e = true →
      (parts.map (fun p => sliceL l p.1 p.2)).flatten = sliceL l s e := by
  intro parts
  induction parts with
  | nil =>
    intro s e h
    rw [chainB_nil] at h
    subst h
    simp [sliceL]
  | cons p rest ih =>
    rcases p with ⟨a, b⟩
    intro s e h
    rw [chainB_cons] at h
    obtain ⟨rfl, hsb, hrest⟩ := h
    simp only [List.map_cons, List.flatten_cons]
    rw [ih b e hrest]
    exact sliceL_append l a b e (by omega) (chainB_le rest b e hrest)

lemma sliceL_full (l : List Nat) : sliceL l 0 l.length = l := by
  simp [sliceL]

/-- Decoding the token list produced from the merge parts yields the
concatenation of the part slices. -/
lemma decode_of_part_tokens (dec specDec : Nat → Option (List Nat))
    (enc : List Nat → Option Nat) (bytes : List Nat)
    (hinv : ∀ bs t, enc bs = some t → dec t = some bs) :
    ∀ (parts : List (Nat × Nat)) (ts : List Nat),
      optMapList (fun p => enc (sliceL bytes p.1 p.2)) parts = some ts →
      _decode_native dec specDec ts =
        some ((parts.map (fun p => sliceL bytes p.1 p.2)).flatten) := by
  intro parts
  induction parts with
  | nil =>
    intro ts h
    simp only [optMapList] at h
    cases h
    simp [decode_native_nil]
  | cons p rest ih =>
    intro ts h
    rw [optMapList_cons] at h
    cases hp : enc (sliceL bytes p.1 p.2) with
    | none => rw [hp] at h; cases h
    | some t =>
      rw [hp] at h
      cases hrest : optMapList (fun p => enc (sliceL bytes p.1 p.2)) rest with
      | none => rw [hrest] at h; cases h
      | some ts0 =>
        rw [hrest] at h
        cases h
        have hdec := hinv _ _ hp
        rw [decode_native_cons_dec dec specDec t ts0 _ hdec, ih ts0 hrest]
        simp

/-- Whenever `byte_pair_encode` succeeds, decoding its tokens recovers the
input bytes. -/
lemma byte_pair_encode_decodes (enc : List Nat → Option Nat)
    (dec specDec : Nat → Option (List Nat)) (bytes : List Nat)
    (hinv : ∀ bs t, enc bs = some t → dec t = some bs) :
    ∀ ts, byte_pair_encode bytes enc = some ts →
      _decode_native dec specDec ts = some bytes := by
  intro ts h
  unfold byte_pair_encode at h
  by_cases h1 : bytes.length = 1
  · rw [if_pos h1] at h
    cases henc : enc bytes with
    | none => rw [henc] at h; cases h
    | some r =>
      rw [henc] at h
      simp only [Option.map_some'] at h
      cases h
      have hdec := hinv _ _ henc
      rw [decode_native_cons_dec dec specDec r [] _ hdec]
      simp [decode_native_nil]
  · rw [if_neg h1] at h
    have hdec := decode_of_part_tokens dec specDec enc bytes hinv _ ts h
    rw [hdec]
    have hchain := byte_pair_merge_chain bytes enc
    rw [chainB_decode_slices bytes _ 0 bytes.length hchain, sliceL_full]

/-- Whenever the fast-or-slow per-piece encoding succeeds, decoding its tokens
recovers the UTF-8 bytes of the piece; and it succeeds when the encoder has
every single byte of the piece. -/
lemma encodePiece_round (enc : List Nat → Option Nat)
    (dec specDec : Nat → Option (List Nat)) (piece : List Nat)
    (hinv : ∀ bs t, enc bs = some t → dec t = some bs)
    (hcov : ∀ b ∈ utf8Encode piece, (enc [b]).isSome) :
    ∃ ts, encodePiece enc piece = some ts ∧
      _decode_native dec specDec ts = some (utf8Encode piece) := by
  unfold encodePiece
  cases henc : enc (utf8Encode piece) with
  | some t =>
    refine ⟨[t], rfl, ?_⟩
    have hdec := hinv _ _ henc
    rw [decode_native_cons_dec dec specDec t [] _ hdec]
    simp [decode_native_nil]
  | none =>
    have hsome := byte_pair_encode_isSome (utf8Encode piece) enc hcov
    rcases Option.isSome_iff_exists.mp hsome with ⟨ts, hts⟩
    exact ⟨ts, hts, byte_pair_encode_decodes enc dec specDec _ hinv ts hts⟩

lemma mem_utf8Encode_flatten (pieces : List (List Nat)) (p : List Nat)
    (hp : p ∈ pieces) (b : Nat) (hb : b ∈ utf8Encode p) :
    b ∈ utf8Encode pieces.flatten := by
  induction pieces with
  | nil => simp at hp
  | cons q rest ih =>
    rcases List.mem_cons.mp hp with rfl | hmem
    · simp only [List.flatten_cons, utf8Encode_append, List.mem_append]
      exact Or.inl hb
    · simp only [List.flatten_cons, utf8Encode_append, List.mem_append]
      exact Or.inr (ih hmem)

/-- Round trip over a piece list: encoding all pieces succeeds and decoding the
concatenated tokens recovers the concatenated UTF-8 bytes. -/
lemma encode_pieces_round (enc : List Nat → Option Nat)
    (dec specDec : Nat → Option (List Nat))
    (hinv : ∀ bs t, enc bs = some t → dec t = some bs) :
    ∀ pieces : List (List Nat),
      (∀ p ∈ pieces, ∀ b ∈ utf8Encode p, (enc [b]).isSome) →
      ∃ ts, optMapList (encodePiece enc) pieces = some ts ∧
        _decode_native dec specDec ts.flatten = some (utf8Encode pieces.flatten) := by
  intro pieces
  induction pieces with
  | nil =>
    intro _
    exact ⟨[], rfl, by simp [decode_native_nil, utf8Encode]⟩
  | cons p rest ih =>
    intro hcov
    rcases encodePiece_round enc dec specDec p hinv (hcov p (by simp)) with ⟨ts, hts, hdec⟩
    rcases ih (fun q hq => hcov q (by simp [hq])) with ⟨tss, htss, hdecs⟩
    refine ⟨ts :: tss, ?_, ?_⟩
    · rw [optMapList_cons, hts, htss]
    · simp only [List.flatten_cons]
      rw [decode_native_append dec specDec ts tss.flatten _ _ hdec hdecs]
      rw [utf8Encode_append]

/-! ## Special-aware encoding `_encode_native` (src/lib.rs lines 572-626)

The special-token regex (an alternation of the escaped special-token literals)
is abstracted as a `find_from_pos` function over positions of the text.  For
a nonempty alternation of nonempty literals every match is nonempty, starts at
or after the searched-from position and ends within the text; those facts are
carried as fields. -/

structure SpecialRegex (n : Nat) where
  find : Nat → Option (Nat × Nat)
  find_ge : ∀ p a b, find p = some (a, b) → p ≤ a
  find_bounds : ∀ p a b, find p = some (a, b) → a < b ∧ b ≤ n

/-- The inner scan of `_encode_native`: advance `start_find` past matches whose
literal is not in `allowed_special`, returning the first allowed special match
(as a position range), or `none`. -/
def scanSpecial {n : Nat} (sr : SpecialRegex n) (allowed : List (List Nat))
    (text : List Nat) (start_find : Nat) : Option (Nat × Nat) :=
  match h : sr.find start_find with
  | none => none
  | some (a, b) =>
    if sliceL text a b ∈ allowed then some (a, b)
    else scanSpecial sr allowed text (a + 1)
termination_by n + 1 - start_find
decreasing_by
  have h1 := sr.find_ge start_find a b h
  have h2 := sr.find_bounds start_find a b h
  omega

lemma scanSpecial_of_find_none {n : Nat} (sr : SpecialRegex n)
    (allowed : List (List Nat)) (text : List Nat) (p : Nat)
    (h : sr.find p = none) : scanSpecial sr allowed text p = none := by
  rw [scanSpecial.eq_def]
  split
  · rfl
  · next a b heq => rw [heq] at h; cases h

lemma scanSpecial_of_find_some {n : Nat} (sr : SpecialRegex n)
    (allowed : List (List Nat)) (text : List Nat) (p a b : Nat)
    (h : sr.find p = some (a, b)) :
    scanSpecial sr allowed text p =
      (if sliceL text a b ∈ allowed then some (a, b)
       else scanSpecial sr allowed text (a + 1)) := by
  rw [scanSpecial.eq_def]
  split
  · next heq => rw [heq] at h; cases h
  · next a2 b2 heq =>
    rw [heq] at h
    cases h
    rfl

lemma scanSpecial_spec {n : Nat} (sr : SpecialRegex n) (allowed : List (List Nat))
    (text : List Nat) :
    ∀ (k p a b : Nat), n + 1 - p ≤ k → scanSpecial sr allowed text p = some (a, b) →
      p ≤ a ∧ a < b ∧ b ≤ n ∧ sliceL text a b ∈ allowed := by
  intro k
  induction k with
  | zero =>
    intro p a b hk h
    cases hf : sr.find p with
    | none => rw [scanSpecial_of_find_none sr allowed text p hf] at h; cases h
    | some q =>
      rcases q with ⟨a2, b2⟩
      have hge := sr.find_ge p a2 b2 hf
      have hbd := sr.find_bounds p a2 b2 hf
      omega
  | succ k ih =>
    intro p a b hk h
    cases hf : sr.find p with
    | none => rw [scanSpecial_of_find_none sr allowed text p hf] at h; cases h
    | some q =>
      rcases q with ⟨a2, b2⟩
      have hge := sr.find_ge p a2 b2 hf
      have hbd := sr.find_bounds p a2 b2 hf
      rw [scanSpecial_of_find_some sr allowed text p a2 b2 hf] at h
      by_cases hmem : sliceL text a2 b2 ∈ allowed
      · rw [if_pos hmem] at h
        cases h
        exact ⟨hge, hbd.1, hbd.2, hmem⟩
      · rw [if_neg hmem] at h
        have := ih (a2 + 1) a b (by omega) h
        exact ⟨by omega, this.2.1, this.2.2.1, this.2.2.2⟩

lemma scanSpecial_nil_allowed {n : Nat} (sr : SpecialRegex n) (text : List Nat) :
    ∀ (k p : Nat), n + 1 - p ≤ k → scanSpecial sr [] text p = none := by
  intro k
  induction k with
  | zero =>
    intro p hk
    cases hf : sr.find p with
    | none => exact scanSpecial_of_find_none sr [] text p hf
    | some q =>
      rcases q with ⟨a, b⟩
      have hge := sr.find_ge p a b hf
      have hbd := sr.find_bounds p a b hf
      omega
  | succ k ih =>
    intro p hk
    cases hf : sr.find p with
    | none => exact scanSpecial_of_find_none sr [] text p hf
    | some q =>
      rcases q with ⟨a, b⟩
      have hge := sr.find_ge p a b hf
      have hbd := sr.find_bounds p a b hf
      rw [scanSpecial_of_find_some sr [] text p a b hf]
      rw [if_neg (by simp)]
      exact ih (a + 1) (by omega)

/-- The per-region piece loop of `_encode_native`: like the loop of
`_encode_ordinary_native` but additionally tracking `last_piece_token_len`
(1 for a fast-path hit, the merge-result length otherwise; unchanged when the
region yields no piece). -/
def processPieces (enc : List Nat → Option Nat) (lptl : Nat) :
    List (List Nat) → Option (List Nat × Nat)
  | [] => some ([], lptl)
  | p :: ps =>
    match enc (utf8Encode p) with
    | some t => (processPieces enc 1 ps).map (fun r => (t :: r.1, r.2))
    | none =>
      match byte_pair_encode (utf8Encode p) enc with
      | none => none
      | some toks => (processPieces enc toks.length ps).map (fun r => (toks ++ r.1, r.2))

/-- The outer loop of `_encode_native`, starting at text position `start` with
the current `last_piece_token_len` (the function is always entered with
`lptl = 0`: initially and after each emitted special token). -/
def encodeNativeGo (enc : List Nat → Option Nat) (specEnc : List Nat → Option Nat)
    (split : List Nat → List (List Nat)) (text : List Nat)
    (sr : SpecialRegex text.length) (allowed : List (List Nat))
    (start lptl : Nat) : Option (List Nat × Nat) :=
  match hscan : scanSpecial sr allowed text start with
  | some (a, b) =>
    match processPieces enc lptl (split (sliceL text start a)) with
    | none => none
    | some (ts, _) =>
      match specEnc (sliceL text a b) with
      | none => none
      | some t =>
        (encodeNativeGo enc specEnc split text sr allowed b 0).map
          (fun r => (ts ++ t :: r.1, r.2))
  | none => processPieces enc lptl (split (sliceL text start text.length))
termination_by text.length + 1 - start
decreasing_by
  have := scanSpecial_spec sr allowed text (text.length + 1 - start) start a b
    (Nat.le_refl _) hscan
  omega

/-- `_encode_native(text, allowed_special)` (src/lib.rs lines 572-626):
returns the token list and the final `last_piece_token_len`. -/
def _encode_native (enc : List Nat → Option Nat) (specEnc : List Nat → Option Nat)
    (split : List Nat → List (List Nat)) (text : List Nat)
    (sr : SpecialRegex text.length) (allowed : List (List Nat)) :
    Option (List Nat × Nat) :=
  encodeNativeGo enc specEnc split text sr allowed 0 0

lemma encodeNativeGo_of_scan_none (enc : List Nat → Option Nat)
    (specEnc : List Nat → Option Nat) (split : List Nat → List (List Nat))
    (text : List Nat) (sr : SpecialRegex text.length) (allowed : List (List Nat))
    (start lptl : Nat) (h : scanSpecial sr allowed text start = none) :
    encodeNativeGo enc specEnc split text sr allowed start lptl =
      processPieces enc lptl (split (sliceL text start text.length)) := by
  rw [encodeNativeGo.eq_def]
  split
  · next a b heq => rw [heq] at h; cases h
  · rfl

lemma optMapList_cons_some {α β : Type} (f : α → Option β) (a : α) (rest : List α)
    (b : β) (h : f a = some b) :
    optMapList f (a :: rest) = (optMapList f rest).map (fun bs => b :: bs) := by
  simp only [optMapList, h]
  cases optMapList f rest <;> simp

lemma optMapList_cons_none {α β : Type} (f : α → Option β) (a : α) (rest : List α)
    (h : f a = none) : optMapList f (a :: rest) = none := by
  simp only [optMapList, h]

lemma processPieces_cons_fast (enc : List Nat → Option Nat) (lptl : Nat)
    (p : List Nat) (ps : List (List Nat)) (t : Nat) (h : enc (utf8Encode p) = some t) :
    processPieces enc lptl (p :: ps) =
      (processPieces enc 1 ps).map (fun r => (t :: r.1, r.2)) := by
  simp only [processPieces, h]

lemma processPieces_cons_slow (enc : List Nat → Option Nat) (lptl : Nat)
    (p : List Nat) (ps : List (List Nat)) (toks : List Nat)
    (h1 : enc (utf8Encode p) = none) (h2 : byte_pair_encode (utf8Encode p) enc = some toks) :
    processPieces enc lptl (p :: ps) =
      (processPieces enc toks.length ps).map (fun r => (toks ++ r.1, r.2)) := by
  simp only [processPieces, h1, h2]

lemma processPieces_cons_panic (enc : List Nat → Option Nat) (lptl : Nat)
    (p : List Nat) (ps : List (List Nat))
    (h1 : enc (utf8Encode p) = none) (h2 : byte_pair_encode (utf8Encode p) enc = none) :
    processPieces enc lptl (p :: ps) = none := by
  simp only [processPieces, h1, h2]

lemma encodePiece_fast (enc : List Nat → Option Nat) (p : List Nat) (t : Nat)
    (h : enc (utf8Encode p) = some t) : encodePiece enc p = some [t] := by
  simp only [encodePiece, h]

lemma encodePiece_slow (enc : List Nat → Option Nat) (p : List Nat)
    (h : enc (utf8Encode p) = none) :
    encodePiece enc p = byte_pair_encode (utf8Encode p) enc := by
  simp only [encodePiece, h]

lemma processPieces_fst (enc : List Nat → Option Nat) :
    ∀ (ps : List (List Nat)) (lptl : Nat),
      (processPieces enc lptl ps).map Prod.fst =
        (optMapList (encodePiece enc) ps).map List.flatten := by
  intro ps
  induction ps with
  | nil => intro lptl; simp [processPieces, optMapList]
  | cons p ps ih =>
    intro lptl
    cases henc : enc (utf8Encode p) with
    | some t =>
      rw [processPieces_cons_fast enc lptl p ps t henc,
        optMapList_cons_some (encodePiece enc) p ps [t] (encodePiece_fast enc p t henc)]
      have hih := ih 1
      cases hp : processPieces enc 1 ps with
      | none =>
        rw [hp] at hih
        cases ho : optMapList (encodePiece enc) ps with
        | none => simp
        | some bss => rw [ho] at hih; simp at hih
      | some r =>
        rw [hp] at hih
        cases ho : optMapList (encodePiece enc) ps with
        | none => rw [ho] at hih; simp at hih
        | some bss =>
          rw [ho] at hih
          simp only [Option.map_some'] at hih
          simp only [Option.map_some', Option.some.injEq] at hih ⊢
          simp [hih]
    | none =>
      cases hbpe : byte_pair_encode (utf8Encode p) enc with
      | none =>
        rw [processPieces_cons_panic enc lptl p ps henc hbpe]
        rw [optMapList_cons_none (encodePiece enc) p ps
          (by rw [encodePiece_slow enc p henc]; exact hbpe)]
        simp
      | some toks =>
        rw [processPieces_cons_slow enc lptl p ps toks henc hbpe,
          optMapList_cons_some (encodePiece enc) p ps toks
            (by rw [encodePiece_slow enc p henc]; exact hbpe)]
        have hih := ih toks.length
        cases hp : processPieces enc toks.length ps with
        | none =>
          rw [hp] at hih
          cases ho : optMapList (encodePiece enc) ps with
          | none => simp
          | some bss => rw [ho] at hih; simp at hih
        | some r =>
          rw [hp] at hih
          cases ho : optMapList (encodePiece enc) ps with
          | none => rw [ho] at hih; simp at hih
          | some bss =>
            rw [ho] at hih
            simp only [Option.map_some', Option.some.injEq] at hih ⊢
            simp [hih]

/-! ## Unstable completions `_encode_unstable_native` (src/lib.rs lines 628-781) -/

/-- `token_is_all_space` of `_increase_last_piece_token_len`: the token is in
`decoder` and all its bytes are space, LF or TAB (the Rust code tests the
reversed byte iterator, which checks the same membership). -/
def token_is_all_space (dec : Nat → Option (List Nat)) (t : Nat) : Bool :=
  match dec t with
  | some bs => bs.all (fun b => b == 32 || b == 10 || b == 9)
  | none => false

/-- The `while` loop of `_increase_last_piece_token_len`. -/
def increaseLptlGo (dec : Nat → Option (List Nat)) (tokens : List Nat) (lptl : Nat) : Nat :=
  if lptl < tokens.length ∧
      token_is_all_space dec (tokens.getD (tokens.length - lptl - 1) 0) = true then
    increaseLptlGo dec tokens (lptl + 1)
  else lptl
termination_by tokens.length - lptl
decreasing_by omega

/-- `_increase_last_piece_token_len` (src/lib.rs lines 628-665); the token list
is returned unchanged by the Rust function, so only the extended length is
modelled. -/
def _increase_last_piece_token_len (dec : Nat → Option (List Nat))
    (tokens : List Nat) (lptl : Nat) : Nat :=
  if 0 < lptl ∧ token_is_all_space dec (tokens.getD (tokens.length - lptl) 0) = true then
    increaseLptlGo dec tokens lptl
  else lptl

/-- Rust `slice::partition_point` (used on `sorted_token_bytes`): binary search
for the first index whose element does not satisfy `pred`.  The window
`hi - lo` shrinks by at least one per step, so the step budget `l.length`
supplied by `partitionPoint` never runs out before `lo = hi`. -/
def partitionPointGo (l : List (List Nat)) (pred : List Nat → Bool) :
    Nat → Nat → Nat → Nat
  | 0, lo, _ => lo
  | fuel + 1, lo, hi =>
    if lo < hi then
      if pred (l.getD ((lo + hi) / 2) []) then
        partitionPointGo l pred fuel ((lo + hi) / 2 + 1) hi
      else partitionPointGo l pred fuel lo ((lo + hi) / 2)
    else lo

def partitionPoint (l : List (List Nat)) (pred : List Nat → Bool) : Nat :=
  partitionPointGo l pred l.length 0 l.length

/-- The token-accumulation loop of the straddle enumeration: push tokens,
summing `decoder[token].len()`, and stop as soon as the decoded length reaches
`target`. -/
def buildSeq (dec : Nat → Option (List Nat)) (target : Nat) : Nat → List Nat → Option (List Nat)
  | _, [] => some []
  | acc, t :: ts =>
    match dec t with
    | none => none
    | some bs =>
      if target ≤ acc + bs.length then some [t]
      else (buildSeq dec target (acc + bs.length) ts).map (fun seq => t :: seq)

/-- One pass of the straddle loop (`for i in 1..unstable_bytes.len()`): for
each table entry starting with `unstable_bytes[i..]`, re-tokenize
`unstable_bytes[..i] ++ entry` (through the regex pipeline when it is valid
UTF-8, raw `byte_pair_encode` otherwise) and keep the token prefix reaching
`unstable_bytes.len()` decoded bytes. -/
def straddleOne (enc : List Nat → Option Nat) (dec : Nat → Option (List Nat))
    (split : List Nat → List (List Nat)) (sortedTokens : List (List Nat))
    (ub : List Nat) (i : Nat) : Option (List (List Nat)) :=
  optMapList
    (fun entry =>
      match (match utf8Decode (ub.take i ++ entry) with
             | some s => _encode_ordinary_native enc split s
             | none => byte_pair_encode (ub.take i ++ entry) enc) with
      | none => none
      | some encoded => buildSeq dec ub.length 0 encoded)
    ((sortedTokens.drop (partitionPoint sortedTokens (fun x => lexLt x (ub.drop i)))).takeWhile
      (fun x => startsWithB x (ub.drop i)))

/-- The Unicode `White_Space` code points (Rust `char::is_whitespace`). -/
def isWhitespaceCP (c : Nat) : Bool :=
  ([9, 10, 11, 12, 13, 32, 0x85, 0xA0, 0x1680, 0x2000, 0x2001, 0x2002, 0x2003, 0x2004,
    0x2005, 0x2006, 0x2007, 0x2008, 0x2009, 0x200A, 0x2028, 0x2029, 0x202F, 0x205F,
    0x3000] : List Nat).contains c

/-- Decoding of the trailing UTF-8 sequence of a byte list, as the Rust code
consumes `bstr::decode_last_utf8` (modelled from the documented behaviour of
that external crate): the decoded last code point together with its byte
length.  When the trailing bytes are not valid UTF-8 the byte count is
approximated as 1; the caller only reads the count when a code point was
decoded. -/
def decodeLastUtf8 (bs : List Nat) : Option Nat × Nat :=
  if bs.length = 0 then (none, 0)
  else if h1 : (match utf8Decode (bs.drop (bs.length - 1)) with
    | some [c] => some c | _ => none : Option Nat).isSome then
    ((match utf8Decode (bs.drop (bs.length - 1)) with
      | some [c] => some c | _ => none), 1)
  else if h2 : 2 ≤ bs.length ∧ (match utf8Decode (bs.drop (bs.length - 2)) with
    | some [c] => some c | _ => none : Option Nat).isSome then
    ((match utf8Decode (bs.drop (bs.length - 2)) with
      | some [c] => some c | _ => none), 2)
  else if h3 : 3 ≤ bs.length ∧ (match utf8Decode (bs.drop (bs.length - 3)) with
    | some [c] => some c | _ => none : Option Nat).isSome then
    ((match utf8Decode (bs.drop (bs.length - 3)) with
      | some [c] => some c | _ => none), 3)
  else if h4 : 4 ≤ bs.length ∧ (match utf8Decode (bs.drop (bs.length - 4)) with
    | some [c] => some c | _ => none : Option Nat).isSome then
    ((match utf8Decode (bs.drop (bs.length - 4)) with
      | some [c] => some c | _ => none), 4)
  else (none, 1)

/-- The completion set assembled by `_encode_unstable_native` from the
computed `unstable_bytes`: single-token completions (entries extending
`unstable_bytes`), straddle completions, and the trailing-whitespace fix-up
(the `HashSet` is modelled as the list of insertions). -/
def completionsFor (enc : List Nat → Option Nat) (dec : Nat → Option (List Nat))
    (split : List Nat → List (List Nat)) (sortedTokens : List (List Nat))
    (ub : List Nat) : Option (List (List Nat)) :=
  match optMapList (fun x => (enc x).map (fun t => [t]))
      ((sortedTokens.drop (partitionPoint sortedTokens (fun x => lexLt x ub))).takeWhile
        (fun x => startsWithB x ub)) with
  | none => none
  | some singles =>
    match optMapList (straddleOne enc dec split sortedTokens ub)
        (List.range' 1 (ub.length - 1)) with
    | none => none
    | some straddles =>
      if 1 < ub.length ∧ 0 < ub.length - (decodeLastUtf8 ub).2 ∧
          ((decodeLastUtf8 ub).1.map isWhitespaceCP).getD false = true then
        match byte_pair_encode (ub.take (ub.length - (decodeLastUtf8 ub).2)) enc,
              byte_pair_encode (ub.drop (ub.length - (decodeLastUtf8 ub).2)) enc with
        | some r1, some r2 => some (singles ++ straddles.flatten ++ [r1 ++ r2])
        | _, _ => none
      else some (singles ++ straddles.flatten)

/-- `_encode_unstable_native(text, allowed_special)` (src/lib.rs lines
667-781). -/
def _encode_unstable_native (enc : List Nat → Option Nat)
    (dec specDec : Nat → Option (List Nat)) (specEnc : List Nat → Option Nat)
    (split : List Nat → List (List Nat)) (sortedTokens : List (List Nat))
    (text : List Nat) (sr : SpecialRegex text.length) (allowed : List (List Nat)) :
    Option (List Nat × List (List Nat)) :=
  match _encode_native enc specEnc split text sr allowed with
  | none => none
  | some (tokens, lptl) =>
    if lptl = 0 then some (tokens, [])
    else
      match _decode_native dec specDec
          (tokens.drop (tokens.length - _increase_last_piece_token_len dec tokens lptl)) with
      | none => none
      | some ub =>
        if ub = [] then
          some (tokens.take (tokens.length - _increase_last_piece_token_len dec tokens lptl), [])
        else
          (completionsFor enc dec split sortedTokens ub).map
            (fun cs =>
              (tokens.take (tokens.length - _increase_last_piece_token_len dec tokens lptl), cs))

/-- The `unstable_bytes` computed by `_encode_unstable_native` (the decoded
bytes of the whitespace-extended last piece), exposed for stating the
unstable-completeness property; `none` when the encoding fails, when the input
ends on a special token, or before the decode. -/
def unstableBytesOf (enc : List Nat → Option Nat)
    (dec specDec : Nat → Option (List Nat)) (specEnc : List Nat → Option Nat)
    (split : List Nat → List (List Nat)) (text : List Nat)
    (sr : SpecialRegex text.length) (allowed : List (List Nat)) : Option (List Nat) :=
  match _encode_native enc specEnc split text sr allowed with
  | none => none
  | some (tokens, lptl) =>
    if lptl = 0 then none
    else
      _decode_native dec specDec
        (tokens.drop (tokens.length - _increase_last_piece_token_len dec tokens lptl))

/-! ## Disallowed-special validation (src/lib.rs lines 258-305)

`special_token_regex` is a literal alternation of the escaped disallowed
special-token strings; `find` on it returns a match iff some literal occurs in
the text.  The scan below models a regex search for a literal alternation:
leftmost position first, trying the alternation branches in order. -/

/-- Occurrence test: `needle` appears as a contiguous substring of `hay`. -/
def isInfixB (needle hay : List Nat) : Bool :=
  (List.range (hay.length + 1)).any (fun p => startsWithB (hay.drop p) needle)

/-- First alternation branch matching at position `p`. -/
def firstMatchAt (text : List Nat) (p : Nat) : List (List Nat) → Option (List Nat)
  | [] => none
  | t :: rest =>
    if startsWithB (text.drop p) t = true then some t else firstMatchAt text p rest

/-- Scan positions `p, p + 1, ...` (`k` positions remaining). -/
def findSpecialGo (tokens : List (List Nat)) (text : List Nat) : Nat → Nat → Option (List Nat)
  | 0, _ => none
  | k + 1, p =>
    match firstMatchAt text p tokens with
    | some t => some t
    | none => findSpecialGo tokens text k (p + 1)

/-- Leftmost occurrence of any of the literals in the text. -/
def findSpecial (tokens : List (List Nat)) (text : List Nat) : Option (List Nat) :=
  findSpecialGo tokens text (text.length + 1) 0

/-- `validate_allowed_tokens` with `disallowed_special = "all"` (the default):
`disallowed = special_tokens_set − allowed_special`; if it is nonempty and one
of its literals occurs in the text, fail with that literal. -/
def validate_allowed_tokens (specialSet : List (List Nat)) (allowed : List (List Nat))
    (text : List Nat) : Except (List Nat) (List (List Nat)) :=
  match (specialSet.filter (fun x => decide (x ∉ allowed))) with
  | [] => Except.ok allowed
  | d :: ds =>
    match findSpecial (d :: ds) text with
    | some found => Except.error found
    | none => Except.ok allowed

/-- `Tiktoken::encode` (src/lib.rs lines 197-209): validate the special-token
policy first, then run the special-aware encoding; a validation error aborts
before any token is produced. -/
def encodeWrapper (enc : List Nat → Option Nat) (specEnc : List Nat → Option Nat)
    (split : List Nat → List (List Nat)) (text : List Nat)
    (sr : SpecialRegex text.length) (specialSet : List (List Nat))
    (allowed : List (List Nat)) : Except (List Nat) (Option (List Nat)) :=
  match validate_allowed_tokens specialSet allowed text with
  | Except.error e => Except.error e
  | Except.ok allowed2 =>
    Except.ok ((_encode_native enc specEnc split text sr allowed2).map Prod.fst)

lemma firstMatchAt_some (text : List Nat) (p : Nat) :
    ∀ (tokens : List (List Nat)) (t : List Nat), firstMatchAt text p tokens = some t →
      t ∈ tokens ∧ startsWithB (text.drop p) t = true := by
  intro tokens
  induction tokens with
  | nil => intro t h; simp [firstMatchAt] at h
  | cons t0 rest ih =>
    intro t h
    unfold firstMatchAt at h
    by_cases hs : startsWithB (text.drop p) t0 = true
    · rw [if_pos hs] at h
      cases h
      exact ⟨by simp, hs⟩
    · rw [if_neg hs] at h
      rcases ih t h with ⟨hmem, hsw⟩
      exact ⟨by simp [hmem], hsw⟩

lemma firstMatchAt_isSome (text : List Nat) (p : Nat) (tokens : List (List Nat))
    (t : List Nat) (hmem : t ∈ tokens) (hsw : startsWithB (text.drop p) t = true) :
    (firstMatchAt text p tokens).isSome := by
  induction tokens with
  | nil => simp at hmem
  | cons t0 rest ih =>
    unfold firstMatchAt
    by_cases hs : startsWithB (text.drop p) t0 = true
    · rw [if_pos hs]; rfl
    · rw [if_neg hs]
      rcases List.mem_cons.mp hmem with rfl | hmem2
      · exact absurd hsw hs
      · exact ih hmem2

lemma findSpecialGo_some (tokens : List (List Nat)) (text : List Nat) :
    ∀ (k p : Nat) (t : List Nat), findSpecialGo tokens text k p = some t →
      t ∈ tokens ∧ ∃ q, startsWithB (text.drop q) t = true := by
  intro k
  induction k with
  | zero => intro p t h; simp [findSpecialGo] at h
  | succ k ih =>
    intro p t h
    unfold findSpecialGo at h
    cases hfm : firstMatchAt text p tokens with
    | some t0 =>
      rw [hfm] at h
      cases h
      rcases firstMatchAt_some text p tokens t hfm with ⟨hmem, hsw⟩
      exact ⟨hmem, p, hsw⟩
    | none =>
      rw [hfm] at h
      exact ih (p + 1) t h

lemma findSpecialGo_isSome (tokens : List (List Nat)) (text : List Nat) :
    ∀ (k p q : Nat), p ≤ q → q < p + k → (firstMatchAt text q tokens).isSome →
      (findSpecialGo tokens text k p).isSome := by
  intro k
  induction k with
  | zero => intro p q h1 h2; omega
  | succ k ih =>
    intro p q h1 h2 h3
    unfold findSpecialGo
    cases hfm : firstMatchAt text p tokens with
    | some t0 => rfl
    | none =>
      by_cases hpq : p = q
      · subst hpq
        rw [hfm] at h3
        cases h3
      · exact ih (p + 1) q (by omega) (by omega) h3

lemma findSpecial_of_isInfixB (tokens : List (List Nat)) (text : List Nat)
    (t : List Nat) (hmem : t ∈ tokens) (hinf : isInfixB t text = true) :
    ∃ found, findSpecial tokens text = some found ∧ found ∈ tokens ∧
      isInfixB found text = true := by
  unfold isInfixB at hinf
  rcases List.any_eq_true.mp hinf with ⟨p, hp, hsw⟩
  have hplt : p < text.length + 1 := List.mem_range.mp hp
  have hsome := findSpecialGo_isSome tokens text (text.length + 1) 0 p (by omega)
    (by omega) (firstMatchAt_isSome text p tokens t hmem hsw)
  rcases Option.isSome_iff_exists.mp hsome with ⟨found, hfound⟩
  rcases findSpecialGo_some tokens text (text.length + 1) 0 found hfound with
    ⟨hfmem, q, hqsw⟩
  refine ⟨found, hfound, hfmem, ?_⟩
  unfold isInfixB
  rw [List.any_eq_true]
  by_cases hq : q < text.length + 1
  · exact ⟨q, List.mem_range.mpr hq, hqsw⟩
  · refine ⟨text.length, List.mem_range.mpr (by omega), ?_⟩
    have hdq : text.drop q = [] := List.drop_eq_nil_of_le (by omega)
    have hdl : text.drop text.length = [] := List.drop_eq_nil_of_le (by omega)
    rw [hdq] at hqsw
    rw [hdl]
    exact hqsw

/-! ## `encode_single_token` (src/lib.rs lines 872-882)

Ordinary-encoder lookup first; otherwise, when the bytes are valid UTF-8 and
their string form is a special token, its id; otherwise the `UnknownToken`
failure (`none`). -/

def encode_single_token (enc : List Nat → Option Nat) (specEnc : List Nat → Option Nat)
    (piece : List Nat) : Option Nat :=
  match enc piece with
  | some t => some t
  | none =>
    match utf8Decode piece with
    | some s => specEnc s
    | none => none

/-! ## BFE payload parsing `parse_bfe` (src/lib.rs lines 44-54)

The payload is a string, modelled as a list of code points.  Per line
(`str::lines`), the code splits on a single space, base64-decodes the first
field (`?` propagates a decode error), parses the second field as `usize`
(`unwrap` panics on a missing or non-numeric field) and inserts into the
`HashMap` (overwriting the value of an existing key). -/

/-- Rust `str::split(sep)`: the segments between occurrences of the separator,
keeping empty segments. -/
def splitOnChar (c : Nat) : List Nat → List (List Nat)
  | [] => [[]]
  | x :: xs =>
    if x = c then [] :: splitOnChar c xs
    else
      match splitOnChar c xs with
      | [] => [[x]]
      | s :: rest => (x :: s) :: rest

/-- Strip one trailing carriage return (applied only to LF-terminated lines,
as `str::lines` strips a CR only when it precedes the LF). -/
def stripCR (l : List Nat) : List Nat :=
  if l.getLast? = some 13 then l.dropLast else l

/-- Rust `str::lines`: split on LF; every segment before the last was
LF-terminated and gets one trailing CR stripped; the final segment keeps a
bare trailing CR, and is dropped when empty (optional final line ending). -/
def rustLines (s : List Nat) : List (List Nat) :=
  (splitOnChar 10 s).dropLast.map stripCR ++
    (match (splitOnChar 10 s).getLast? with
     | some [] => []
     | some l => [l]
     | none => [])

/-- Value of a standard-base64 alphabet character. -/
def b64Val (c : Nat) : Option Nat :=
  if 65 ≤ c ∧ c ≤ 90 then some (c - 65)
  else if 97 ≤ c ∧ c ≤ 122 then some (c - 97 + 26)
  else if 48 ≤ c ∧ c ≤ 57 then some (c - 48 + 52)
  else if c = 43 then some 62
  else if c = 47 then some 63
  else none

/-- Standard base64 decoding with required canonical padding and rejected
nonzero trailing bits, the configuration of the `base64` crate engine
`general_purpose::STANDARD` used by `parse_bfe` (modelled from that external
crate's documented behaviour): 4-character groups, `=` padding only at the
end, input length a multiple of 4. -/
def b64DecodeGo : List Nat → Option (List Nat)
  | [] => some []
  | c1 :: c2 :: c3 :: c4 :: rest =>
    match b64Val c1, b64Val c2 with
    | some v1, some v2 =>
      if c3 = 61 then
        if c4 = 61 ∧ rest = [] then
          if v2 % 16 = 0 then some [v1 * 4 + v2 / 16] else none
        else none
      else
        match b64Val c3 with
        | some v3 =>
          if c4 = 61 then
            if rest = [] then
              if v3 % 4 = 0 then some [v1 * 4 + v2 / 16, v2 % 16 * 16 + v3 / 4] else none
            else none
          else
            match b64Val c4 with
            | some v4 =>
              (b64DecodeGo rest).map
                (fun bs => (v1 * 4 + v2 / 16) :: (v2 % 16 * 16 + v3 / 4) :: (v3 % 4 * 64 + v4) :: bs)
            | none => none
        | none => none
    | _, _ => none
  | _ => none

def b64Decode (s : List Nat) : Option (List Nat) := b64DecodeGo s

/-- Rust `str::parse::<usize>` on an all-digit string (an optional leading
`+` is accepted).  On the wasm32 target `usize` is 32 bits and parsing errors
on overflow, so values of `2 ^ 32` or more are rejected; since digits only
grow the accumulated value, the final-value bound is equivalent to the
per-step checked arithmetic of the Rust parser. -/
def parseDigits (s : List Nat) : Option Nat :=
  if s ≠ [] ∧ s.all (fun c => 48 ≤ c ∧ c ≤ 57) ∧
      s.foldl (fun a c => a * 10 + (c - 48)) 0 < 4294967296 then
    some (s.foldl (fun a c => a * 10 + (c - 48)) 0)
  else none

def parseUsize (s : List Nat) : Option Nat :=
  match s with
  | 43 :: rest => parseDigits rest
  | _ => parseDigits s

/-- Outcome of `parse_bfe`: a returned encoder (as the association list of its
entries in first-insertion order), a returned `Err`, or a panic. -/
inductive BfeOutcome where
  | ok : List (List Nat × Nat) → BfeOutcome
  | err : BfeOutcome
  | panicked : BfeOutcome
deriving DecidableEq

/-- `HashMap::insert`: replace the value of an existing key, else append. -/
def insertKV (m : List (List Nat × Nat)) (k : List Nat) (v : Nat) : List (List Nat × Nat) :=
  match m with
  | [] => [(k, v)]
  | (k0, v0) :: rest => if k0 = k then (k, v) :: rest else (k0, v0) :: insertKV rest k v

/-- The per-line loop of `parse_bfe`. -/
def parse_bfe_go (encAcc : List (List Nat × Nat)) : List (List Nat) → BfeOutcome
  | [] => BfeOutcome.ok encAcc
  | line :: rest =>
    match b64Decode ((splitOnChar 32 line).headD []) with
    | none => BfeOutcome.err
    | some token =>
      match (splitOnChar 32 line)[1]? with
      | none => BfeOutcome.panicked
      | some f2 =>
        match parseUsize f2 with
        | none => BfeOutcome.panicked
        | some rank => parse_bfe_go (insertKV encAcc token rank) rest

/-- `parse_bfe(tiktoken_bfe)` (src/lib.rs lines 44-54). -/
def parse_bfe (s : List Nat) : BfeOutcome := parse_bfe_go [] (rustLines s)

/-- Classification of a line: the first field base64-decodes and the second
field parses as a nonnegative integer. -/
def lineOkB (line : List Nat) : Bool :=
  (b64Decode ((splitOnChar 32 line).headD [])).isSome &&
    match (splitOnChar 32 line)[1]? with
    | none => false
    | some f2 => (parseUsize f2).isSome

/-- A line whose first field is not valid base64. -/
def lineB64FailsB (line : List Nat) : Bool :=
  (b64Decode ((splitOnChar 32 line).headD [])).isNone

/-- A line whose first field decodes but whose second field is missing or not
a nonnegative integer. -/
def lineParseFailsB (line : List Nat) : Bool :=
  (b64Decode ((splitOnChar 32 line).headD [])).isSome &&
    match (splitOnChar 32 line)[1]? with
    | none => true
    | some f2 => (parseUsize f2).isNone

/-- The key/rank of a well-formed line. -/
def lineKV (line : List Nat) : List Nat × Nat :=
  ((b64Decode ((splitOnChar 32 line).headD [])).getD [],
    (((splitOnChar 32 line)[1]?).bind parseUsize).getD 0)

/-- The encoder built from well-formed lines, later duplicates overwriting. -/
def buildEnc (encAcc : List (List Nat × Nat)) : List (List Nat) → List (List Nat × Nat)
  | [] => encAcc
  | line :: rest => buildEnc (insertKV encAcc (lineKV line).1 (lineKV line).2) rest

lemma parse_bfe_go_cons_err (encAcc : List (List Nat × Nat)) (line : List Nat)
    (rest : List (List Nat)) (h : b64Decode ((splitOnChar 32 line).headD []) = none) :
    parse_bfe_go encAcc (line :: rest) = BfeOutcome.err := by
  simp only [parse_bfe_go, h]

lemma parse_bfe_go_cons_panic1 (encAcc : List (List Nat × Nat)) (line : List Nat)
    (rest : List (List Nat)) (token : List Nat)
    (h1 : b64Decode ((splitOnChar 32 line).headD []) = some token)
    (h2 : (splitOnChar 32 line)[1]? = none) :
    parse_bfe_go encAcc (line :: rest) = BfeOutcome.panicked := by
  simp only [parse_bfe_go, h1, h2]

lemma parse_bfe_go_cons_panic2 (encAcc : List (List Nat × Nat)) (line : List Nat)
    (rest : List (List Nat)) (token f2 : List Nat)
    (h1 : b64Decode ((splitOnChar 32 line).headD []) = some token)
    (h2 : (splitOnChar 32 line)[1]? = some f2) (h3 : parseUsize f2 = none) :
    parse_bfe_go encAcc (line :: rest) = BfeOutcome.panicked := by
  simp only [parse_bfe_go, h1, h2, h3]

lemma parse_bfe_go_cons_ok (encAcc : List (List Nat × Nat)) (line : List Nat)
    (rest : List (List Nat)) (token f2 : List Nat) (rank : Nat)
    (h1 : b64Decode ((splitOnChar 32 line).headD []) = some token)
    (h2 : (splitOnChar 32 line)[1]? = some f2) (h3 : parseUsize f2 = some rank) :
    parse_bfe_go encAcc (line :: rest) = parse_bfe_go (insertKV encAcc token rank) rest := by
  simp only [parse_bfe_go, h1, h2, h3]

lemma lineKV_eq (line token f2 : List Nat) (rank : Nat)
    (h1 : b64Decode ((splitOnChar 32 line).headD []) = some token)
    (h2 : (splitOnChar 32 line)[1]? = some f2) (h3 : parseUsize f2 = some rank) :
    lineKV line = (token, rank) := by
  unfold lineKV
  rw [h1, h2]
  simp [h3]

lemma lineOkB_elim (line : List Nat) (h : lineOkB line = true) :
    ∃ token f2 rank, b64Decode ((splitOnChar 32 line).headD []) = some token ∧
      (splitOnChar 32 line)[1]? = some f2 ∧ parseUsize f2 = some rank := by
  unfold lineOkB at h
  rw [Bool.and_eq_true] at h
  rcases Option.isSome_iff_exists.mp h.1 with ⟨token, htok⟩
  have h2 := h.2
  cases hf2 : (splitOnChar 32 line)[1]? with
  | none => rw [hf2] at h2; cases h2
  | some f2 =>
    rw [hf2] at h2
    have h2a : (parseUsize f2).isSome = true := h2
    rcases Option.isSome_iff_exists.mp h2a with ⟨rank, hrank⟩
    exact ⟨token, f2, rank, htok, rfl, hrank⟩

lemma lineOkB_intro (line token f2 : List Nat) (rank : Nat)
    (h1 : b64Decode ((splitOnChar 32 line).headD []) = some token)
    (h2 : (splitOnChar 32 line)[1]? = some f2) (h3 : parseUsize f2 = some rank) :
    lineOkB line = true := by
  unfold lineOkB
  rw [Bool.and_eq_true, h1, h2]
  refine ⟨rfl, ?_⟩
  show (parseUsize f2).isSome = true
  rw [h3]
  rfl

lemma lineB64FailsB_iff (line : List Nat) :
    lineB64FailsB line = true ↔ b64Decode ((splitOnChar 32 line).headD []) = none := by
  unfold lineB64FailsB
  rw [Option.isNone_iff_eq_none]

lemma lineParseFailsB_elim (line : List Nat) (h : lineParseFailsB line = true) :
    ∃ token, b64Decode ((splitOnChar 32 line).headD []) = some token ∧
      ((splitOnChar 32 line)[1]? = none ∨
        ∃ f2, (splitOnChar 32 line)[1]? = some f2 ∧ parseUsize f2 = none) := by
  unfold lineParseFailsB at h
  rw [Bool.and_eq_true] at h
  rcases Option.isSome_iff_exists.mp h.1 with ⟨token, htok⟩
  have h2 := h.2
  cases hf2 : (splitOnChar 32 line)[1]? with
  | none => exact ⟨token, htok, Or.inl rfl⟩
  | some f2 =>
    rw [hf2] at h2
    have h2a : (parseUsize f2).isNone = true := h2
    exact ⟨token, htok, Or.inr ⟨f2, rfl, Option.isNone_iff_eq_none.mp h2a⟩⟩

lemma not_ok_of_b64_none (line : List Nat)
    (h : b64Decode ((splitOnChar 32 line).headD []) = none) : lineOkB line = false := by
  unfold lineOkB
  rw [h]
  rfl

lemma not_ok_of_parse_fails (line : List Nat) (h : lineParseFailsB line = true) :
    lineOkB line = false := by
  rcases lineParseFailsB_elim line h with ⟨token, htok, hrest⟩
  unfold lineOkB
  rw [htok]
  rcases hrest with hf2 | ⟨f2, hf2, hparse⟩
  · rw [hf2]
    rfl
  · rw [hf2]
    simp [hparse]

lemma not_b64fails_of_some (line : List Nat) (token : List Nat)
    (h : b64Decode ((splitOnChar 32 line).headD []) = some token) :
    lineB64FailsB line = false := by
  unfold lineB64FailsB
  rw [h]
  rfl

lemma not_parsefails_of_ok (line : List Nat) (h : lineOkB line = true) :
    lineParseFailsB line = false := by
  rcases lineOkB_elim line h with ⟨token, f2, rank, htok, hf2, hrank⟩
  unfold lineParseFailsB
  rw [htok, hf2]
  simp [hrank]

lemma parse_bfe_go_ok_of_all : ∀ (lines : List (List Nat)) (encAcc : List (List Nat × Nat)),
    (∀ l ∈ lines, lineOkB l = true) →
    parse_bfe_go encAcc lines = BfeOutcome.ok (buildEnc encAcc lines) := by
  intro lines
  induction lines with
  | nil => intro encAcc _; rfl
  | cons line rest ih =>
    intro encAcc hok
    rcases lineOkB_elim line (hok line (by simp)) with ⟨token, f2, rank, htok, hf2, hrank⟩
    rw [parse_bfe_go_cons_ok encAcc line rest token f2 rank htok hf2 hrank]
    rw [ih (insertKV encAcc token rank) (fun l hl => hok l (by simp [hl]))]
    have hbe : buildEnc encAcc (line :: rest) =
        buildEnc (insertKV encAcc (lineKV line).1 (lineKV line).2) rest := rfl
    rw [hbe, lineKV_eq line token f2 rank htok hf2 hrank]

lemma parse_bfe_go_err_iff : ∀ (lines : List (List Nat)) (encAcc : List (List Nat × Nat)),
    parse_bfe_go encAcc lines = BfeOutcome.err ↔
      ∃ pre line post, lines = pre ++ line :: post ∧
        (∀ l ∈ pre, lineOkB l = true) ∧ lineB64FailsB line = true := by
  intro lines
  induction lines with
  | nil =>
    intro encAcc
    constructor
    · intro h; cases h
    · rintro ⟨pre, line, post, heq, -, -⟩
      cases pre <;> simp at heq
  | cons line rest ih =>
    intro encAcc
    cases htok : b64Decode ((splitOnChar 32 line).headD []) with
    | none =>
      rw [parse_bfe_go_cons_err encAcc line rest htok]
      constructor
      · intro _
        exact ⟨[], line, rest, rfl, by simp, (lineB64FailsB_iff line).mpr htok⟩
      · intro _; rfl
    | some token =>
      cases hf2 : (splitOnChar 32 line)[1]? with
      | none =>
        rw [parse_bfe_go_cons_panic1 encAcc line rest token htok hf2]
        constructor
        · intro h; cases h
        · rintro ⟨pre, bad, post, heq, hpreok, hbad⟩
          cases pre with
          | nil =>
            rw [List.nil_append] at heq
            injection heq with heq1 heq2
            subst heq1
            rw [lineB64FailsB_iff, htok] at hbad
            cases hbad
          | cons p0 pre2 =>
            rw [List.cons_append] at heq
            injection heq with heq1 heq2
            subst heq1
            have hl0 := hpreok line (by simp)
            rcases lineOkB_elim line hl0 with ⟨t2, g2, r2, -, hg2, -⟩
            rw [hf2] at hg2
            cases hg2
      | some f2 =>
        cases hrank : parseUsize f2 with
        | none =>
          rw [parse_bfe_go_cons_panic2 encAcc line rest token f2 htok hf2 hrank]
          constructor
          · intro h; cases h
          · rintro ⟨pre, bad, post, heq, hpreok, hbad⟩
            cases pre with
            | nil =>
              rw [List.nil_append] at heq
              injection heq with heq1 heq2
              subst heq1
              rw [lineB64FailsB_iff, htok] at hbad
              cases hbad
            | cons p0 pre2 =>
              rw [List.cons_append] at heq
              injection heq with heq1 heq2
              subst heq1
              have hl0 := hpreok line (by simp)
              rcases lineOkB_elim line hl0 with ⟨t2, g2, r2, -, hg2, hr2⟩
              rw [hf2] at hg2
              injection hg2 with hg2e
              subst hg2e
              rw [hrank] at hr2
              cases hr2
        | some rank =>
          rw [parse_bfe_go_cons_ok encAcc line rest token f2 rank htok hf2 hrank]
          rw [ih (insertKV encAcc token rank)]
          have hlok : lineOkB line = true := lineOkB_intro line token f2 rank htok hf2 hrank
          constructor
          · rintro ⟨pre, bad, post, heq, hpreok, hbad⟩
            refine ⟨line :: pre, bad, post, by rw [heq, List.cons_append], ?_, hbad⟩
            intro l hl
            rcases List.mem_cons.mp hl with rfl | hl2
            · exact hlok
            · exact hpreok l hl2
          · rintro ⟨pre, bad, post, heq, hpreok, hbad⟩
            cases pre with
            | nil =>
              rw [List.nil_append] at heq
              injection heq with heq1 heq2
              subst heq1
              rw [lineB64FailsB_iff, htok] at hbad
              cases hbad
            | cons p0 pre2 =>
              rw [List.cons_append] at heq
              injection heq with heq1 heq2
              exact ⟨pre2, bad, post, heq2, fun l hl => hpreok l (by simp [hl]), hbad⟩

lemma parse_bfe_go_panicked_iff :
    ∀ (lines : List (List Nat)) (encAcc : List (List Nat × Nat)),
    parse_bfe_go encAcc lines = BfeOutcome.panicked ↔
      ∃ pre line post, lines = pre ++ line :: post ∧
        (∀ l ∈ pre, lineOkB l = true) ∧ lineParseFailsB line = true := by
  intro lines
  induction lines with
  | nil =>
    intro encAcc
    constructor
    · intro h; cases h
    · rintro ⟨pre, line, post, heq, -, -⟩
      cases pre <;> simp at heq
  | cons line rest ih =>
    intro encAcc
    cases htok : b64Decode ((splitOnChar 32 line).headD []) with
    | none =>
      rw [parse_bfe_go_cons_err encAcc line rest htok]
      constructor
      · intro h; cases h
      · rintro ⟨pre, bad, post, heq, hpreok, hbad⟩
        cases pre with
        | nil =>
          rw [List.nil_append] at heq
          injection heq with heq1 heq2
          subst heq1
          rcases lineParseFailsB_elim line hbad with ⟨t2, ht2, -⟩
          rw [htok] at ht2
          cases ht2
        | cons p0 pre2 =>
          rw [List.cons_append] at heq
          injection heq with heq1 heq2
          subst heq1
          have hl0 := hpreok line (by simp)
          have hcontra := not_ok_of_b64_none line htok
          rw [hl0] at hcontra
          cases hcontra
    | some token =>
      cases hf2 : (splitOnChar 32 line)[1]? with
      | none =>
        rw [parse_bfe_go_cons_panic1 encAcc line rest token htok hf2]
        have hpf : lineParseFailsB line = true := by
          unfold lineParseFailsB
          rw [htok, hf2]
          rfl
        constructor
        · intro _
          exact ⟨[], line, rest, rfl, by simp, hpf⟩
        · intro _; rfl
      | some f2 =>
        cases hrank : parseUsize f2 with
        | none =>
          rw [parse_bfe_go_cons_panic2 encAcc line rest token f2 htok hf2 hrank]
          have hpf : lineParseFailsB line = true := by
            unfold lineParseFailsB
            rw [htok, hf2]
            simp [hrank]
          constructor
          · intro _
            exact ⟨[], line, rest, rfl, by simp, hpf⟩
          · intro _; rfl
        | some rank =>
          rw [parse_bfe_go_cons_ok encAcc line rest token f2 rank htok hf2 hrank]
          rw [ih (insertKV encAcc token rank)]
          have hlok : lineOkB line = true := lineOkB_intro line token f2 rank htok hf2 hrank
          constructor
          · rintro ⟨pre, bad, post, heq, hpreok, hbad⟩
            refine ⟨line :: pre, bad, post, by rw [heq, List.cons_append], ?_, hbad⟩
            intro l hl
            rcases List.mem_cons.mp hl with rfl | hl2
            · exact hlok
            · exact hpreok l hl2
          · rintro ⟨pre, bad, post, heq, hpreok, hbad⟩
            cases pre with
            | nil =>
              rw [List.nil_append] at heq
              injection heq with heq1 heq2
              subst heq1
              have hcontra := not_parsefails_of_ok line hlok
              rw [hbad] at hcontra
              cases hcontra
            | cons p0 pre2 =>
              rw [List.cons_append] at heq
              injection heq with heq1 heq2
              exact ⟨pre2, bad, post, heq2, fun l hl => hpreok l (by simp [hl]), hbad⟩

/-! ## Lemmas for unstable completeness (claim C5) -/

lemma buildSeq_cons_done (dec : Nat → Option (List Nat)) (target acc t : Nat)
    (ts : List Nat) (bs : List Nat) (h1 : dec t = some bs)
    (h2 : target ≤ acc + bs.length) :
    buildSeq dec target acc (t :: ts) = some [t] := by
  simp only [buildSeq, h1, if_pos h2]

lemma buildSeq_cons_more (dec : Nat → Option (List Nat)) (target acc t : Nat)
    (ts : List Nat) (bs : List Nat) (h1 : dec t = some bs)
    (h2 : ¬ target ≤ acc + bs.length) :
    buildSeq dec target acc (t :: ts) =
      (buildSeq dec target (acc + bs.length) ts).map (fun seq => t :: seq) := by
  simp only [buildSeq, h1, if_neg h2]

lemma buildSeq_cons_none (dec : Nat → Option (List Nat)) (target acc t : Nat)
    (ts : List Nat) (h1 : dec t = none) :
    buildSeq dec target acc (t :: ts) = none := by
  simp only [buildSeq, h1]

/-- The token prefix kept by the straddle loop decodes to a byte-prefix of the
full decoding, and that byte-prefix reaches `target` bytes unless it is the
whole decoding. -/
lemma buildSeq_spec (dec specDec : Nat → Option (List Nat)) (target : Nat) :
    ∀ (ts : List Nat) (acc : Nat) (seq full : List Nat),
      buildSeq dec target acc ts = some seq →
      _decode_native dec specDec ts = some full →
      ∃ ds r, _decode_native dec specDec seq = some ds ∧ ds ++ r = full ∧
        (target ≤ acc + ds.length ∨ r = []) := by
  intro ts
  induction ts with
  | nil =>
    intro acc seq full hb hd
    have hb2 : (some [] : Option (List Nat)) = some seq := hb
    have hd2 : (some [] : Option (List Nat)) = some full := hd
    cases hb2
    cases hd2
    exact ⟨[], [], decode_native_nil dec specDec, rfl, Or.inr rfl⟩
  | cons t ts ih =>
    intro acc seq full hb hd
    cases hdt : dec t with
    | none => rw [buildSeq_cons_none dec target acc t ts hdt] at hb; cases hb
    | some bs =>
      rw [decode_native_cons_dec dec specDec t ts bs hdt] at hd
      cases hdts : _decode_native dec specDec ts with
      | none => rw [hdts] at hd; cases hd
      | some full2 =>
        rw [hdts] at hd
        simp only [Option.map_some'] at hd
        cases hd
        by_cases hstop : target ≤ acc + bs.length
        · rw [buildSeq_cons_done dec target acc t ts bs hdt hstop] at hb
          cases hb
          refine ⟨bs, full2, ?_, rfl, Or.inl (by omega)⟩
          rw [decode_native_cons_dec dec specDec t [] bs hdt, decode_native_nil]
          simp
        · rw [buildSeq_cons_more dec target acc t ts bs hdt hstop] at hb
          cases hbrec : buildSeq dec target (acc + bs.length) ts with
          | none => rw [hbrec] at hb; cases hb
          | some seq2 =>
            rw [hbrec] at hb
            simp only [Option.map_some'] at hb
            cases hb
            rcases ih (acc + bs.length) seq2 full2 hbrec hdts with
              ⟨ds2, r2, hdec2, happ2, hdisj2⟩
            refine ⟨bs ++ ds2, r2, ?_, ?_, ?_⟩
            · rw [decode_native_cons_dec dec specDec t seq2 bs hdt, hdec2]
              simp
            · rw [List.append_assoc, happ2]
            · rcases hdisj2 with hle | hr
              · exact Or.inl (by simp [List.length_append]; omega)
              · exact Or.inr hr

/-- Whenever an `encodePiece` call succeeds, its tokens decode back to the
UTF-8 bytes of the piece (only the encoder-decoder inverse invariant is
needed). -/
lemma encodePiece_decodes (enc : List Nat → Option Nat)
    (dec specDec : Nat → Option (List Nat)) (p : List Nat)
    (hinv : ∀ bs t, enc bs = some t → dec t = some bs) :
    ∀ ts, encodePiece enc p = some ts →
      _decode_native dec specDec ts = some (utf8Encode p) := by
  intro ts h
  unfold encodePiece at h
  cases henc : enc (utf8Encode p) with
  | some t =>
    rw [henc] at h
    have h2 : (some [t] : Option (List Nat)) = some ts := h
    cases h2
    rw [decode_native_cons_dec dec specDec t [] _ (hinv _ _ henc), decode_native_nil]
    simp
  | none =>
    rw [henc] at h
    have h2 : byte_pair_encode (utf8Encode p) enc = some ts := h
    exact byte_pair_encode_decodes enc dec specDec _ hinv ts h2

/-- Whenever the whole per-piece loop succeeds, the concatenated tokens decode
back to the concatenated UTF-8 bytes. -/
lemma encode_pieces_decodes (enc : List Nat → Option Nat)
    (dec specDec : Nat → Option (List Nat))
    (hinv : ∀ bs t, enc bs = some t → dec t = some bs) :
    ∀ (pieces : List (List Nat)) (tss : List (List Nat)),
      optMapList (encodePiece enc) pieces = some tss →
      _decode_native dec specDec tss.flatten = some (utf8Encode pieces.flatten) := by
  intro pieces
  induction pieces with
  | nil =>
    intro tss h
    have h2 : (some [] : Option (List (List Nat))) = some tss := h
    cases h2
    simp [decode_native_nil, utf8Encode]
  | cons p rest ih =>
    intro tss h
    rw [optMapList_cons] at h
    cases hp : encodePiece enc p with
    | none => rw [hp] at h; cases h
    | some ts0 =>
      rw [hp] at h
      cases hrest : optMapList (encodePiece enc) rest with
      | none => rw [hrest] at h; cases h
      | some tss0 =>
        rw [hrest] at h
        cases h
        simp only [List.flatten_cons]
        rw [decode_native_append dec specDec ts0 tss0.flatten _ _
          (encodePiece_decodes enc dec specDec p hinv ts0 hp) (ih tss0 hrest)]
        rw [utf8Encode_append]

/-- Whenever `_encode_ordinary_native` succeeds and the splitter covers its
input, the tokens decode back to the UTF-8 bytes of the input. -/
lemma encode_ordinary_decodes (enc : List Nat → Option Nat)
    (dec specDec : Nat → Option (List Nat)) (split : List Nat → List (List Nat))
    (s : List Nat) (hinv : ∀ bs t, enc bs = some t → dec t = some bs)
    (hsplit : (split s).flatten = s) :
    ∀ ts, _encode_ordinary_native enc split s = some ts →
      _decode_native dec specDec ts = some (utf8Encode s) := by
  intro ts h
  unfold _encode_ordinary_native at h
  cases ho : optMapList (encodePiece enc) (split s) with
  | none => rw [ho] at h; cases h
  | some tss =>
    rw [ho] at h
    simp only [Option.map_some'] at h
    cases h
    have := encode_pieces_decodes enc dec specDec hinv (split s) tss ho
    rw [hsplit] at this
    exact this

/-- Every completion produced by one straddle pass decodes to a byte sequence
extending `unstable_bytes`. -/
lemma straddleOne_spec (enc : List Nat → Option Nat)
    (dec specDec : Nat → Option (List Nat)) (split : List Nat → List (List Nat))
    (sortedTokens : List (List Nat)) (ub : List Nat) (i : Nat)
    (hinv : ∀ bs t, enc bs = some t → dec t = some bs)
    (hsplit : ∀ s, (split s).flatten = s) (cs : List (List Nat))
    (h : straddleOne enc dec split sortedTokens ub i = some cs) :
    ∀ c ∈ cs, ∃ ds, _decode_native dec specDec c = some ds ∧
      startsWithB ds ub = true := by
  intro c hc
  unfold straddleOne at h
  rcases optMapList_mem _ _ _ h c hc with ⟨entry, hentry, hfc⟩
  have hsw0 := List.mem_takeWhile_imp hentry
  have hsw : startsWithB entry (ub.drop i) = true := hsw0
  rcases (startsWithB_iff entry (ub.drop i)).mp hsw with ⟨tail, rfl⟩
  have hposs : ub.take i ++ (ub.drop i ++ tail) = ub ++ tail := by
    rw [← List.append_assoc, List.take_append_drop]
  -- the encoded token list decodes to the possibility, in both branches
  have hdecoded : ∀ encoded,
      (match utf8Decode (ub.take i ++ (ub.drop i ++ tail)) with
       | some s => _encode_ordinary_native enc split s
       | none => byte_pair_encode (ub.take i ++ (ub.drop i ++ tail)) enc) = some encoded →
      _decode_native dec specDec encoded = some (ub ++ tail) := by
    intro encoded hE
    cases hu : utf8Decode (ub.take i ++ (ub.drop i ++ tail)) with
    | some s =>
      rw [hu] at hE
      have hdec := encode_ordinary_decodes enc dec specDec split s hinv (hsplit s)
        encoded hE
      rw [utf8Encode_of_utf8Decode _ s hu, hposs] at hdec
      exact hdec
    | none =>
      rw [hu] at hE
      have hdec := byte_pair_encode_decodes enc dec specDec _ hinv encoded hE
      rw [hposs] at hdec
      exact hdec
  cases hE : (match utf8Decode (ub.take i ++ (ub.drop i ++ tail)) with
       | some s => _encode_ordinary_native enc split s
       | none => byte_pair_encode (ub.take i ++ (ub.drop i ++ tail)) enc) with
  | none => rw [hE] at hfc; cases hfc
  | some encoded =>
    rw [hE] at hfc
    have hfc2 : buildSeq dec ub.length 0 encoded = some c := hfc
    rcases buildSeq_spec dec specDec ub.length encoded 0 c (ub ++ tail) hfc2
      (hdecoded encoded hE) with ⟨ds, r, hdec, happ, hdisj⟩
    refine ⟨ds, hdec, ?_⟩
    rcases hdisj with hle | hr
    · exact startsWithB_of_append_le ub ds r tail happ (by omega)
    · subst hr
      refine startsWithB_of_append_le ub ds [] tail happ ?_
      have := congrArg List.length happ
      simp at this
      omega

/-- Every element of the completion set assembled from `unstable_bytes`
decodes to a byte sequence having `unstable_bytes` as a byte-prefix. -/
lemma completionsFor_spec (enc : List Nat → Option Nat)
    (dec specDec : Nat → Option (List Nat)) (split : List Nat → List (List Nat))
    (sortedTokens : List (List Nat)) (ub : List Nat)
    (hinv : ∀ bs t, enc bs = some t → dec t = some bs)
    (hsplit : ∀ s, (split s).flatten = s) (cs : List (List Nat))
    (h : completionsFor enc dec split sortedTokens ub = some cs) :
    ∀ c ∈ cs, ∃ ds, _decode_native dec specDec c = some ds ∧
      startsWithB ds ub = true := by
  intro c hc
  unfold completionsFor at h
  cases hsingles : optMapList (fun x => (enc x).map (fun t => [t]))
      ((sortedTokens.drop (partitionPoint sortedTokens (fun x => lexLt x ub))).takeWhile
        (fun x => startsWithB x ub)) with
  | none =>
    rw [hsingles] at h
    have h2 : (none : Option (List (List Nat))) = some cs := h
    cases h2
  | some singles =>
    rw [hsingles] at h
    have hsingles_mem : ∀ c2 ∈ singles, ∃ ds, _decode_native dec specDec c2 = some ds ∧
        startsWithB ds ub = true := by
      intro c2 hc2
      rcases optMapList_mem _ _ _ hsingles c2 hc2 with ⟨x, hx, hfx⟩
      have hswx0 := List.mem_takeWhile_imp hx
      have hswx : startsWithB x ub = true := hswx0
      cases hencx : enc x with
      | none => rw [hencx] at hfx; cases hfx
      | some t =>
        rw [hencx] at hfx
        simp only [Option.map_some'] at hfx
        cases hfx
        refine ⟨x, ?_, hswx⟩
        rw [decode_native_cons_dec dec specDec t [] _ (hinv _ _ hencx), decode_native_nil]
        simp
    cases hstr : optMapList (straddleOne enc dec split sortedTokens ub)
        (List.range' 1 (ub.length - 1)) with
    | none =>
      rw [hstr] at h
      have h2 : (none : Option (List (List Nat))) = some cs := h
      cases h2
    | some straddles =>
      rw [hstr] at h
      have hstraddle_mem : ∀ c2 ∈ straddles.flatten,
          ∃ ds, _decode_native dec specDec c2 = some ds ∧ startsWithB ds ub = true := by
        intro c2 hc2
        rcases List.mem_flatten.mp hc2 with ⟨cs2, hcs2, hc2mem⟩
        rcases optMapList_mem _ _ _ hstr cs2 hcs2 with ⟨i, _, hfi⟩
        exact straddleOne_spec enc dec specDec split sortedTokens ub i hinv hsplit
          cs2 hfi c2 hc2mem
      have h3 : (if 1 < ub.length ∧ 0 < ub.length - (decodeLastUtf8 ub).2 ∧
          ((decodeLastUtf8 ub).1.map isWhitespaceCP).getD false = true then
          match byte_pair_encode (ub.take (ub.length - (decodeLastUtf8 ub).2)) enc,
                byte_pair_encode (ub.drop (ub.length - (decodeLastUtf8 ub).2)) enc with
          | some r1, some r2 => some (singles ++ straddles.flatten ++ [r1 ++ r2])
          | _, _ => none
        else some (singles ++ straddles.flatten)) = some cs := h
      by_cases hcond : 1 < ub.length ∧ 0 < ub.length - (decodeLastUtf8 ub).2 ∧
          ((decodeLastUtf8 ub).1.map isWhitespaceCP).getD false = true
      · rw [if_pos hcond] at h3
        cases hr1 : byte_pair_encode (ub.take (ub.length - (decodeLastUtf8 ub).2)) enc with
        | none =>
          rw [hr1] at h3
          have h4 : (none : Option (List (List Nat))) = some cs := h3
          cases h4
        | some r1 =>
          rw [hr1] at h3
          cases hr2 : byte_pair_encode (ub.drop (ub.length - (decodeLastUtf8 ub).2)) enc with
          | none =>
            rw [hr2] at h3
            have h4 : (none : Option (List (List Nat))) = some cs := h3
            cases h4
          | some r2 =>
            rw [hr2] at h3
            have h4 : (some (singles ++ straddles.flatten ++ [r1 ++ r2]) :
                Option (List (List Nat))) = some cs := h3
            cases h4
            rcases List.mem_append.mp hc with hc12 | hcfix
            · rcases List.mem_append.mp hc12 with hc1 | hc2
              · exact hsingles_mem c hc1
              · exact hstraddle_mem c hc2
            · have hceq : c = r1 ++ r2 := by simpa using hcfix
              subst hceq
              refine ⟨ub, ?_, startsWithB_refl ub⟩
              have hd1 := byte_pair_encode_decodes enc dec specDec _ hinv r1 hr1
              have hd2 := byte_pair_encode_decodes enc dec specDec _ hinv r2 hr2
              rw [decode_native_append dec specDec r1 r2 _ _ hd1 hd2,
                List.take_append_drop]
      · rw [if_neg hcond] at h3
        have h4 : (some (singles ++ straddles.flatten) :
            Option (List (List Nat))) = some cs := h3
        cases h4
        rcases List.mem_append.mp hc with hc1 | hc2
        · exact hsingles_mem c hc1
        · exact hstraddle_mem c hc2

/-! # Claim theorems -/

/-- C1: for every rank table and every parts state of length at least 2 (in
particular the initial state of any piece of length at least 2), one iteration
of the merge loop in `_byte_pair_merge` finds, among all adjacent part pairs
whose concatenated bytes are in the table, the pair with the minimum rank,
breaking ties by the smaller (leftmost) index: when the scan returns
`some (r, i)`, pair `i` has rank `r`, no scanned pair has a smaller rank, every
pair left of `i` has a strictly larger rank, and the loop continues on exactly
`mergeAt parts i`; when the scan returns `none`, no adjacent pair's
concatenation is in the table and the loop terminates with `parts`. -/
theorem byte_pair_merge_step_minimal (piece : List Nat)
    (ranks : List Nat → Option Nat) (parts : List (Nat × Nat))
    (h2 : 2 ≤ parts.length) :
    (∀ r i, findMinRank (pairRank piece ranks parts) (parts.length - 1) = some (r, i) →
      pairRank piece ranks parts i = some r ∧ i + 1 < parts.length ∧
      (∀ j s, j < parts.length - 1 → pairRank piece ranks parts j = some s → r ≤ s) ∧
      (∀ j s, j < i → pairRank piece ranks parts j = some s → r < s) ∧
      bpmGo piece ranks parts = bpmGo piece ranks (mergeAt parts i)) ∧
    (findMinRank (pairRank piece ranks parts) (parts.length - 1) = none →
      (∀ j, j < parts.length - 1 → pairRank piece ranks parts j = none) ∧
      bpmGo piece ranks parts = parts) := by
  constructor
  · intro r i hfm
    have hg := findMinRank_some _ _ _ _ hfm
    refine ⟨hg.2.1, by omega, hg.2.2.1, hg.2.2.2, ?_⟩
    apply bpmGo_of_step_some
    unfold bpmStep
    rw [if_neg (by omega), hfm]
  · intro hfm
    constructor
    · intro j hj
      cases hpr : pairRank piece ranks parts j with
      | none => rfl
      | some s => exact (findMinRank_none _ _ hfm j s hj hpr).elim
    · apply bpmGo_of_step_none
      unfold bpmStep
      rw [if_neg (by omega), hfm]

/-- Rank table for the witnesses below: only the byte pair `[0, 1]` has a
rank. -/
def cRanksPair : List Nat → Option Nat := fun k => if k = [0, 1] then some 5 else none

theorem byte_pair_merge_step_minimal_witness :
    bpmGo [0, 1] cRanksPair [(0, 1), (1, 2)] =
      bpmGo [0, 1] cRanksPair (mergeAt [(0, 1), (1, 2)] 0) :=
  ((byte_pair_merge_step_minimal [0, 1] cRanksPair [(0, 1), (1, 2)]
    (by decide)).1 5 0 (by decide)).2.2.2.2

/-- C4: for every byte slice of length at least 1 and every rank table, the
ranges returned by `_byte_pair_merge` are a nonempty ordered chain of
nonempty, contiguous, pairwise-disjoint half-open ranges covering exactly
`[0, piece.length)`: the first starts at 0, each range's end is the next
range's start, every range satisfies `start < end`, and the last ends at
`piece.length` (all of which `chainB 0 _ piece.length` states). -/
theorem byte_pair_merge_partition (piece : List Nat) (ranks : List Nat → Option Nat)
    (h1 : 1 ≤ piece.length) :
    chainB 0 (_byte_pair_merge piece ranks) piece.length = true ∧
      _byte_pair_merge piece ranks ≠ [] := by
  refine ⟨byte_pair_merge_chain piece ranks, ?_⟩
  intro hnil
  have hch := byte_pair_merge_chain piece ranks
  rw [hnil, chainB_nil] at hch
  omega

theorem byte_pair_merge_partition_witness :
    chainB 0 (_byte_pair_merge [0, 1] cRanksPair) 2 = true ∧
      _byte_pair_merge [0, 1] cRanksPair ≠ [] :=
  byte_pair_merge_partition [0, 1] cRanksPair (by decide)

/-- C6: for every byte slice of length at least 1, if the encoder contains the
singleton byte sequence of every byte occurring in the slice, then every rank
lookup performed by `byte_pair_encode` succeeds, so the call is total (the
Rust indexings `ranks[piece]` and `ranks[&piece[p.start..p.end]]` never hit a
missing key). -/
theorem byte_pair_encode_total (piece : List Nat) (ranks : List Nat → Option Nat)
    (_h1 : 1 ≤ piece.length) (hcov : ∀ b ∈ piece, (ranks [b]).isSome) :
    (byte_pair_encode piece ranks).isSome :=
  byte_pair_encode_isSome piece ranks hcov

/-- Rank table for the C6 witness: both single bytes, but not their pair. -/
def cRanksSingles : List Nat → Option Nat := fun k =>
  if k = [0] then some 0 else if k = [1] then some 1 else none

theorem byte_pair_encode_total_witness : (byte_pair_encode [0, 1] cRanksSingles).isSome :=
  byte_pair_encode_total [0, 1] cRanksSingles (by decide) (by decide)

/-- C2: for every string whose splitter matches concatenate to the whole
string (pattern coverage; the published patterns also never produce empty
matches, carried as `_hne`), with the decoder the materialized inverse of the
encoder (the `CoreBPE::new` construction invariant) and the encoder containing
every single byte of the string (single-byte coverage of well-formed tables),
`_encode_ordinary_native` succeeds and `_decode_native` of its output is
exactly the UTF-8 bytes of the input. -/
theorem encode_ordinary_round_trip (enc : List Nat → Option Nat)
    (dec specDec : Nat → Option (List Nat)) (split : List Nat → List (List Nat))
    (text : List Nat)
    (hsplit : (split text).flatten = text)
    (_hne : ∀ p ∈ split text, p ≠ [])
    (hcov : ∀ b ∈ utf8Encode text, (enc [b]).isSome)
    (hinv : ∀ bs t, enc bs = some t → dec t = some bs) :
    ∃ ts, _encode_ordinary_native enc split text = some ts ∧
      _decode_native dec specDec ts = some (utf8Encode text) := by
  have hpercov : ∀ p ∈ split text, ∀ b ∈ utf8Encode p, (enc [b]).isSome := by
    intro p hp b hb
    refine hcov b ?_
    have hmem := mem_utf8Encode_flatten (split text) p hp b hb
    rw [hsplit] at hmem
    exact hmem
  rcases encode_pieces_round enc dec specDec hinv (split text) hpercov with
    ⟨tss, htss, hdec⟩
  refine ⟨tss.flatten, ?_, ?_⟩
  · unfold _encode_ordinary_native
    rw [htss]
    rfl
  · rw [hsplit] at hdec
    exact hdec

/-- Encoder fixture for witnesses: each single byte is its own token. -/
def cEnc : List Nat → Option Nat := fun bs =>
  match bs with
  | [b] => some b
  | _ => none

/-- Decoder fixture: the inverse of `cEnc`. -/
def cDec : Nat → Option (List Nat) := fun t => some [t]

/-- Special decoder / encoder fixtures: no special tokens. -/
def cSpecNone : Nat → Option (List Nat) := fun _ => none

def cSpecEncNone : List Nat → Option Nat := fun _ => none

/-- Splitter fixture: one piece holding the whole (nonempty) input. -/
def cSplit : List Nat → List (List Nat) := fun s => if s = [] then [] else [s]

/-- Special-regex fixture: no matches. -/
def cSRNone (n : Nat) : SpecialRegex n where
  find := fun _ => none
  find_ge := fun _ _ _ h => Option.noConfusion h
  find_bounds := fun _ _ _ h => Option.noConfusion h

lemma cEnc_inv : ∀ (bs : List Nat) (t : Nat), cEnc bs = some t → cDec t = some bs := by
  intro bs t h
  match bs with
  | [b] =>
    have h2 : some b = some t := h
    cases h2
    rfl
  | [] =>
    have h2 : (none : Option Nat) = some t := h
    cases h2
  | b1 :: b2 :: r =>
    have h2 : (none : Option Nat) = some t := h
    cases h2

lemma cSplit_covers : ∀ s : List Nat, (cSplit s).flatten = s := by
  intro s
  by_cases hs : s = []
  · subst hs; rfl
  · simp [cSplit, hs]

theorem encode_ordinary_round_trip_witness :
    ∃ ts, _encode_ordinary_native cEnc cSplit [104] = some ts ∧
      _decode_native cDec cSpecNone ts = some (utf8Encode [104]) :=
  encode_ordinary_round_trip cEnc cDec cSpecNone cSplit [104]
    (by decide) (by decide) (by decide) cEnc_inv

/-- C10: encoding with an empty allowed-special set produces exactly the token
list of the ordinary path, even when the text contains special-token matches:
the scan skips every special match and the whole text is routed through the
ordinary regex (the two sides also fail identically). -/
theorem encode_native_empty_allowed (enc : List Nat → Option Nat)
    (specEnc : List Nat → Option Nat) (split : List Nat → List (List Nat))
    (text : List Nat) (sr : SpecialRegex text.length) :
    (_encode_native enc specEnc split text sr []).map Prod.fst =
      _encode_ordinary_native enc split text := by
  unfold _encode_native
  rw [encodeNativeGo_of_scan_none enc specEnc split text sr [] 0 0
    (scanSpecial_nil_allowed sr text (text.length + 1) 0 (by omega))]
  rw [sliceL_full text, processPieces_fst]
  rfl

theorem encode_native_empty_allowed_witness :
    (_encode_native cEnc cSpecEncNone cSplit [104] (cSRNone 1) []).map Prod.fst =
      _encode_ordinary_native cEnc cSplit [104] :=
  encode_native_empty_allowed cEnc cSpecEncNone cSplit [104] (cSRNone 1)

/-- C9: if the special-aware encoding returns `last_piece_token_len = 0` (the
input ended on a special token), `_encode_unstable_native` returns exactly the
token list of that encoding paired with the empty completion set — no unstable
enumeration is performed. -/
theorem encode_unstable_special_end (enc : List Nat → Option Nat)
    (dec specDec : Nat → Option (List Nat)) (specEnc : List Nat → Option Nat)
    (split : List Nat → List (List Nat)) (sortedTokens : List (List Nat))
    (text : List Nat) (sr : SpecialRegex text.length) (allowed : List (List Nat))
    (ts : List Nat)
    (h : _encode_native enc specEnc split text sr allowed = some (ts, 0)) :
    _encode_unstable_native enc dec specDec specEnc split sortedTokens text sr allowed =
      some (ts, []) := by
  unfold _encode_unstable_native
  rw [h]
  rfl

theorem encode_unstable_special_end_witness :
    _encode_unstable_native cEnc cDec cSpecNone cSpecEncNone cSplit [] [] (cSRNone 0) [] =
      some ([], []) :=
  encode_unstable_special_end cEnc cDec cSpecNone cSpecEncNone cSplit [] [] (cSRNone 0)
    [] []
    (by
      unfold _encode_native
      rw [encodeNativeGo_of_scan_none cEnc cSpecEncNone cSplit [] (cSRNone 0) [] 0 0
        (scanSpecial_of_find_none (cSRNone 0) [] [] 0 rfl)]
      rfl)

/-- C5: every element of the completion set returned by
`_encode_unstable_native` — whether produced by the prefix enumeration, the
straddle enumeration or the trailing-whitespace fix — decodes via the decoder
mapping to a byte sequence having the computed `unstable_bytes` as a
byte-prefix.  Hypotheses: the decoder is the materialized inverse of the
encoder (the `CoreBPE::new` construction invariant), and the splitter matches
concatenate to the split input (true of the published patterns). -/
theorem encode_unstable_completions_extend (enc : List Nat → Option Nat)
    (dec specDec : Nat → Option (List Nat)) (specEnc : List Nat → Option Nat)
    (split : List Nat → List (List Nat)) (sortedTokens : List (List Nat))
    (text : List Nat) (sr : SpecialRegex text.length) (allowed : List (List Nat))
    (hinv : ∀ bs t, enc bs = some t → dec t = some bs)
    (hsplit : ∀ s, (split s).flatten = s)
    (toks : List Nat) (comps : List (List Nat)) (c : List Nat)
    (henc : _encode_unstable_native enc dec specDec specEnc split sortedTokens
      text sr allowed = some (toks, comps))
    (hc : c ∈ comps) :
    ∃ ub ds,
      unstableBytesOf enc dec specDec specEnc split text sr allowed = some ub ∧
      _decode_native dec specDec c = some ds ∧ startsWithB ds ub = true := by
  unfold _encode_unstable_native at henc
  cases hen : _encode_native enc specEnc split text sr allowed with
  | none =>
    rw [hen] at henc
    have h2 : (none : Option (List Nat × List (List Nat))) = some (toks, comps) := henc
    cases h2
  | some p =>
    rcases p with ⟨tokens, lptl⟩
    rw [hen] at henc
    have henc2 : (if lptl = 0 then some (tokens, ([] : List (List Nat)))
        else
          match _decode_native dec specDec
              (tokens.drop (tokens.length - _increase_last_piece_token_len dec tokens lptl)) with
          | none => none
          | some ub =>
            if ub = [] then
              some (tokens.take
                (tokens.length - _increase_last_piece_token_len dec tokens lptl), [])
            else
              (completionsFor enc dec split sortedTokens ub).map
                (fun cs =>
                  (tokens.take
                    (tokens.length - _increase_last_piece_token_len dec tokens lptl),
                    cs))) = some (toks, comps) := henc
    by_cases hl0 : lptl = 0
    · rw [if_pos hl0] at henc2
      cases henc2
      simp at hc
    · rw [if_neg hl0] at henc2
      cases hdec : _decode_native dec specDec
          (tokens.drop (tokens.length - _increase_last_piece_token_len dec tokens lptl)) with
      | none =>
        rw [hdec] at henc2
        have h2 : (none : Option (List Nat × List (List Nat))) = some (toks, comps) := henc2
        cases h2
      | some ub =>
        rw [hdec] at henc2
        have henc3 : (if ub = [] then
            some (tokens.take
              (tokens.length - _increase_last_piece_token_len dec tokens lptl),
              ([] : List (List Nat)))
          else
            (completionsFor enc dec split sortedTokens ub).map
              (fun cs =>
                (tokens.take
                  (tokens.length - _increase_last_piece_token_len dec tokens lptl),
                  cs))) = some (toks, comps) := henc2
        by_cases hube : ub = []
        · rw [if_pos hube] at henc3
          have h2 : some (tokens.take
              (tokens.length - _increase_last_piece_token_len dec tokens lptl),
              ([] : List (List Nat))) = some (toks, comps) := henc3
          cases h2
          simp at hc
        · rw [if_neg hube] at henc3
          cases hcf : completionsFor enc dec split sortedTokens ub with
          | none =>
            rw [hcf] at henc3
            have h2 : (none : Option (List Nat × List (List Nat))) = some (toks, comps) :=
              henc3
            cases h2
          | some cs =>
            rw [hcf] at henc3
            simp only [Option.map_some'] at henc3
            have h2 : toks = tokens.take
                (tokens.length - _increase_last_piece_token_len dec tokens lptl) ∧
                comps = cs := by
              have := henc3
              injection this with hpair
              exact ⟨(Prod.mk.injEq _ _ _ _ |>.mp hpair.symm).1,
                (Prod.mk.injEq _ _ _ _ |>.mp hpair.symm).2⟩
            have hub : unstableBytesOf enc dec specDec specEnc split text sr allowed =
                some ub := by
              unfold unstableBytesOf
              rw [hen]
              show (if lptl = 0 then none
                else _decode_native dec specDec
                  (tokens.drop
                    (tokens.length - _increase_last_piece_token_len dec tokens lptl))) =
                some ub
              rw [if_neg hl0]
              exact hdec
            rcases completionsFor_spec enc dec specDec split sortedTokens ub hinv hsplit
              cs hcf c (by rw [← h2.2]; exact hc) with ⟨ds, hds, hsw⟩
            exact ⟨ub, ds, hub, hds, hsw⟩

theorem encode_unstable_completions_extend_witness :
    ∃ ub ds,
      unstableBytesOf cEnc cDec cSpecNone cSpecEncNone cSplit [97] (cSRNone 1) [] =
        some ub ∧
      _decode_native cDec cSpecNone [97] = some ds ∧ startsWithB ds ub = true :=
  encode_unstable_completions_extend cEnc cDec cSpecNone cSpecEncNone cSplit [[97]]
    [97] (cSRNone 1) [] cEnc_inv cSplit_covers [] [[97]] [97]
    (by
      have hen : _encode_native cEnc cSpecEncNone cSplit [97] (cSRNone 1) [] =
          some ([97], 1) := by
        unfold _encode_native
        rw [encodeNativeGo_of_scan_none cEnc cSpecEncNone cSplit [97] (cSRNone 1) [] 0 0
          (scanSpecial_of_find_none (cSRNone 1) [] [97] 0 rfl)]
        rfl
      unfold _encode_unstable_native
      rw [hen]
      rfl)
    (by decide)

/-- C7: with the default arguments (`allowed_special` empty and
`disallowed_special = "all"`, i.e. all special tokens), if the text contains
an occurrence of any special-token literal, the encode call fails with a
`DisallowedSpecialTokenFound` error carrying an occurring literal, and no
token list is produced: validation runs before any encoding, so the
`Except.error` result excludes partial output by construction. -/
theorem encode_default_rejects_special (enc : List Nat → Option Nat)
    (specEnc : List Nat → Option Nat) (split : List Nat → List (List Nat))
    (text : List Nat) (sr : SpecialRegex text.length) (specialSet : List (List Nat))
    (hocc : ∃ t ∈ specialSet, isInfixB t text = true) :
    ∃ lit, encodeWrapper enc specEnc split text sr specialSet [] = Except.error lit ∧
      lit ∈ specialSet ∧ isInfixB lit text = true := by
  rcases hocc with ⟨t, htmem, htinf⟩
  have hfilter : specialSet.filter (fun x => decide (x ∉ ([] : List (List Nat)))) =
      specialSet := by
    simp
  cases specialSet with
  | nil => simp at htmem
  | cons d ds =>
    rcases findSpecial_of_isInfixB (d :: ds) text t htmem htinf with
      ⟨found, hfound, hfm, hfinf⟩
    have hval : validate_allowed_tokens (d :: ds) [] text = Except.error found := by
      unfold validate_allowed_tokens
      rw [hfilter]
      show (match findSpecial (d :: ds) text with
        | some f => Except.error f
        | none => Except.ok ([] : List (List Nat))) = Except.error found
      rw [hfound]
    refine ⟨found, ?_, hfm, hfinf⟩
    unfold encodeWrapper
    rw [hval]

theorem encode_default_rejects_special_witness :
    ∃ lit, encodeWrapper cEnc cSpecEncNone cSplit [60] (cSRNone 1) [[60]] [] =
      Except.error lit ∧ lit ∈ [[60]] ∧ isInfixB lit [60] = true :=
  encode_default_rejects_special cEnc cSpecEncNone cSplit [60] (cSRNone 1) [[60]]
    (by decide)

/-- C8: `encode_single_token` returns `encoder[bytes]` when present — the
ordinary lookup takes priority over the special one regardless of the special
table; otherwise, when the bytes are valid UTF-8 whose string form is a
special-token key, it returns that id; otherwise it fails (`UnknownToken`,
modelled by `none`). -/
theorem encode_single_token_spec (enc specEnc : List Nat → Option Nat)
    (piece : List Nat) :
    (∀ t, enc piece = some t → encode_single_token enc specEnc piece = some t) ∧
    (enc piece = none → ∀ s t, utf8Decode piece = some s → specEnc s = some t →
      encode_single_token enc specEnc piece = some t) ∧
    (enc piece = none → (∀ s, utf8Decode piece = some s → specEnc s = none) →
      encode_single_token enc specEnc piece = none) := by
  refine ⟨?_, ?_, ?_⟩
  · intro t h
    simp only [encode_single_token, h]
  · intro h s t hu hs
    simp only [encode_single_token, h, hu, hs]
  · intro h hn
    cases hu : utf8Decode piece with
    | some s => simp only [encode_single_token, h, hu, hn s hu]
    | none => simp only [encode_single_token, h, hu]

theorem encode_single_token_spec_witness :
    encode_single_token cEnc cSpecEncNone [97] = some 97 :=
  (encode_single_token_spec cEnc cSpecEncNone [97]).1 97 rfl

/-- C3 counterexample: the payload `AA== 1` + newline + `AQ== 1` (code points
below) contains two lines with the same rank 1, yet `parse_bfe` succeeds and
returns both entries instead of failing with a `MalformedMergeTable` error. -/
theorem parse_bfe_duplicate_rank_counterexample :
    parse_bfe [65, 65, 61, 61, 32, 49, 10, 65, 81, 61, 61, 32, 49] =
      BfeOutcome.ok [([0], 1), ([1], 1)] ∧
    parse_bfe [65, 65, 61, 61, 32, 49, 10, 65, 81, 61, 61, 32, 49] ≠
      BfeOutcome.err := by
  decide

/-- C3 (amended): `parse_bfe` processes lines left to right; it returns an
error iff the first ill-formed line has an invalid-base64 first field, it
panics (rather than returning an error) iff the first ill-formed line has a
well-formed first field but a missing or non-integer second field, and when
every line is well-formed it succeeds with the map built by inserting each
line's decoded key and rank in order, later duplicate keys overwriting earlier
ones — duplicate ranks, duplicate keys and empty keys are accepted, not
rejected. -/
theorem parse_bfe_outcome_characterization (s : List Nat) :
    ((∀ l ∈ rustLines s, lineOkB l = true) →
      parse_bfe s = BfeOutcome.ok (buildEnc [] (rustLines s))) ∧
    (parse_bfe s = BfeOutcome.err ↔
      ∃ pre line post, rustLines s = pre ++ line :: post ∧
        (∀ l ∈ pre, lineOkB l = true) ∧ lineB64FailsB line = true) ∧
    (parse_bfe s = BfeOutcome.panicked ↔
      ∃ pre line post, rustLines s = pre ++ line :: post ∧
        (∀ l ∈ pre, lineOkB l = true) ∧ lineParseFailsB line = true) :=
  ⟨parse_bfe_go_ok_of_all (rustLines s) [], parse_bfe_go_err_iff (rustLines s) [],
    parse_bfe_go_panicked_iff (rustLines s) []⟩

theorem parse_bfe_outcome_characterization_witness :
    parse_bfe [65, 65, 61, 61, 32, 49] =
      BfeOutcome.ok (buildEnc [] (rustLines [65, 65, 61, 61, 32, 49])) :=
  (parse_bfe_outcome_characterization [65, 65, 61, 61, 32, 49]).1 (by decide)
